import Mathlib

/-!
# hahooks-go: the capture-and-handoff pipeline

A shallow embedding of `main.go` and `types.go`.

* Go `string` and `[]byte` values are byte sequences (`Bytes`).
* A Go `error` is `Option Bytes`: `none` is `nil`, `some t` an error whose text is `t`.
* The effects of the handler are recorded, in program order, as a list of `Event`s.
* What the collaborators answer (the body stream, `json.Marshal`, the S3 uploader, the SQS
  client, the uuid generator) is a parameter, `Env` and `HttpRequest.Body`, so that every
  outcome is covered; `goEnv` plugs in the encoders of the Go standard library.
-/

namespace Hahooks

/-! ## Bytes and literals -/

/-- A Go `string` or `[]byte`. -/
abbrev Bytes := List Nat

/-- UTF-8 encoding of one code point. -/
def utf8Encode (c : Nat) : Bytes :=
  if c < 0x80 then [c]
  else if c < 0x800 then [0xC0 + c / 64, 0x80 + c % 64]
  else if c < 0x10000 then [0xE0 + c / 4096, 0x80 + c / 64 % 64, 0x80 + c % 64]
  else [0xF0 + c / 262144, 0x80 + c / 4096 % 64, 0x80 + c / 64 % 64, 0x80 + c % 64]

/-- The bytes of a string literal of the source. -/
def bytesOf (s : String) : Bytes :=
  s.toList.flatMap (fun c => utf8Encode c.toNat)

/-- The header multimap `map[string][]string`, as an association list. -/
abbrev Header := List (Bytes × List Bytes)

/-! ## `encoding/base64`: `StdEncoding` -/

/-- The alphabet `encodeStd`. -/
def encodeStd : Bytes :=
  bytesOf "ABCDEFGHIJKLMNOPQRSTUVWXYZabcdefghijklmnopqrstuvwxyz0123456789+/"

/-- The padding character `StdPadding`, `=`. -/
def stdPadding : Nat := 61

/-- The table lookup `enc.encode[i]`. -/
def encodeChar (i : Nat) : Nat := encodeStd.getD i 0

/-- `base64.StdEncoding.EncodeToString`: three bytes make the 24-bit `val`, cut into four
6-bit indices; a remainder of one or two bytes is padded with `=`. -/
def base64Encode : Bytes → Bytes
  | [] => []
  | [a] =>
    let val := a * 65536
    [encodeChar (val / 262144 % 64), encodeChar (val / 4096 % 64), stdPadding, stdPadding]
  | [a, b] =>
    let val := a * 65536 + b * 256
    [encodeChar (val / 262144 % 64), encodeChar (val / 4096 % 64),
     encodeChar (val / 64 % 64), stdPadding]
  | a :: b :: c :: rest =>
    let val := a * 65536 + b * 256 + c
    encodeChar (val / 262144 % 64) :: encodeChar (val / 4096 % 64) ::
      encodeChar (val / 64 % 64) :: encodeChar (val % 64) :: base64Encode rest

/-- The table lookup `enc.decodeMap[c]`: the position of `c` in the alphabet. -/
def decodeChar (c : Nat) : Option Nat :=
  if c ∈ encodeStd then some (encodeStd.indexOf c) else none

/-- Decoding of the quanta of a text from which `\r` and `\n` have been removed. -/
def decodeQuanta : Bytes → Option Bytes
  | [] => some []
  | [c0, c1, 61, 61] =>
    match decodeChar c0, decodeChar c1 with
    | some s0, some s1 => some [(s0 * 4 + s1 / 16) % 256]
    | _, _ => none
  | [c0, c1, c2, 61] =>
    match decodeChar c0, decodeChar c1, decodeChar c2 with
    | some s0, some s1, some s2 => some [(s0 * 4 + s1 / 16) % 256, (s1 * 16 + s2 / 4) % 256]
    | _, _, _ => none
  | c0 :: c1 :: c2 :: c3 :: rest =>
    match decodeChar c0, decodeChar c1, decodeChar c2, decodeChar c3, decodeQuanta rest with
    | some s0, some s1, some s2, some s3, some tail =>
      some ((s0 * 4 + s1 / 16) % 256 :: (s1 * 16 + s2 / 4) % 256 :: (s2 * 64 + s3) % 256 :: tail)
    | _, _, _, _, _ => none
  | _ => none

/-- `base64.StdEncoding.DecodeString`: line breaks are skipped, the rest is decoded four
characters at a time, padding is accepted only in the last quantum. -/
def base64Decode (s : Bytes) : Option Bytes :=
  decodeQuanta (s.filter (fun c => c != 10 && c != 13))

/-! ## `unicode/utf8` and `encoding/json`: encoding of strings -/

/-- The rune `utf8.RuneError`. -/
def runeError : Nat := 0xFFFD

/-- The table `first` with `acceptRanges`, for a lead byte outside ASCII: the size of the
sequence and the range accepted for its second byte; `none` for the bytes marked `xx`. -/
def leadInfo (s0 : Nat) : Option (Nat × Nat × Nat) :=
  if s0 < 0xC2 then none
  else if s0 < 0xE0 then some (2, 0x80, 0xBF)
  else if s0 = 0xE0 then some (3, 0xA0, 0xBF)
  else if s0 = 0xED then some (3, 0x80, 0x9F)
  else if s0 < 0xF0 then some (3, 0x80, 0xBF)
  else if s0 = 0xF0 then some (4, 0x90, 0xBF)
  else if s0 < 0xF4 then some (4, 0x80, 0xBF)
  else if s0 = 0xF4 then some (4, 0x80, 0x8F)
  else none

/-- `utf8.DecodeRuneInString`: the rune at the start of `s` and its width in bytes. -/
def decodeRune (s : Bytes) : Nat × Nat :=
  match s with
  | [] => (runeError, 0)
  | s0 :: _ =>
    if s0 < 0x80 then (s0, 1)
    else
      match leadInfo s0 with
      | none => (runeError, 1)
      | some (sz, lo, hi) =>
        if s.length < sz then (runeError, 1)
        else
          let s1 := s.getD 1 0
          if s1 < lo ∨ hi < s1 then (runeError, 1)
          else if sz ≤ 2 then (s0 % 32 * 64 + s1 % 64, 2)
          else
            let s2 := s.getD 2 0
            if s2 < 0x80 ∨ 0xBF < s2 then (runeError, 1)
            else if sz ≤ 3 then (s0 % 16 * 4096 + s1 % 64 * 64 + s2 % 64, 3)
            else
              let s3 := s.getD 3 0
              if s3 < 0x80 ∨ 0xBF < s3 then (runeError, 1)
              else (s0 % 8 * 262144 + s1 % 64 * 4096 + s2 % 64 * 64 + s3 % 64, 4)

/-- The loop of `utf8.ValidString`: no position of the text decodes to `RuneError` with
width 1. One character per unit of fuel. -/
def validLoop : Nat → Bytes → Bool
  | 0, src => src.isEmpty
  | _, [] => true
  | fuel + 1, b :: rest =>
    if b < 0x80 then validLoop fuel rest
    else
      let (c, size) := decodeRune (b :: rest)
      if c = runeError ∧ size = 1 then false
      else validLoop fuel (rest.drop (size - 1))

/-- `utf8.ValidString`: the text is well-formed UTF-8. -/
def utf8Valid (s : Bytes) : Bool := validLoop s.length s

/-- The table `hex` of `encoding/json`. -/
def hexDigit (n : Nat) : Nat := (bytesOf "0123456789abcdef").getD n 0

/-- The table `htmlSafeSet`: the ASCII bytes written as they are. -/
def htmlSafe (b : Nat) : Bool :=
  decide (0x20 ≤ b) && decide (b < 0x80) && b != 34 && b != 38 && b != 60 && b != 62 && b != 92

/-- The escape written for an ASCII byte that is not in `htmlSafeSet` (`\b` and `\f` as Go
writes them since 1.22; older releases write `\u0008` and `\u000c`). -/
def escapeByte (b : Nat) : Bytes :=
  if b = 92 ∨ b = 34 then [92, b]
  else if b = 8 then [92, 98]
  else if b = 12 then [92, 102]
  else if b = 10 then [92, 110]
  else if b = 13 then [92, 114]
  else if b = 9 then [92, 116]
  else [92, 117, 48, 48, hexDigit (b / 16), hexDigit (b % 16)]

/-- The loop of `appendString` (with `escapeHTML`), one character per unit of fuel. -/
def appendStringLoop : Nat → Bytes → Bytes
  | 0, _ => []
  | _, [] => []
  | fuel + 1, b :: rest =>
    if b < 0x80 then
      if htmlSafe b then b :: appendStringLoop fuel rest
      else escapeByte b ++ appendStringLoop fuel rest
    else
      let (c, size) := decodeRune (b :: rest)
      if c = runeError ∧ size = 1 then
        bytesOf "\\ufffd" ++ appendStringLoop fuel rest
      else if c = 0x2028 ∨ c = 0x2029 then
        bytesOf "\\u202" ++ [hexDigit (c % 16)] ++ appendStringLoop fuel (rest.drop (size - 1))
      else
        (b :: rest).take size ++ appendStringLoop fuel (rest.drop (size - 1))

/-- `appendString` of `encoding/json`: the quoted JSON string for `src`. -/
def appendString (src : Bytes) : Bytes :=
  [34] ++ appendStringLoop src.length src ++ [34]

/-- The texts joined with commas. -/
def joinComma : List Bytes → Bytes
  | [] => []
  | [x] => x
  | x :: y :: rest => x ++ [44] ++ joinComma (y :: rest)

/-- The encoder of a `[]string` that is not nil. -/
def encodeStringSlice (xs : List Bytes) : Bytes :=
  [91] ++ joinComma (xs.map appendString) ++ [93]

/-- Order of strings, byte by byte, as `strings.Compare` gives it. -/
def bytesLt : Bytes → Bytes → Bool
  | [], [] => false
  | [], _ :: _ => true
  | _ :: _, [] => false
  | a :: as, b :: bs => decide (a < b) || (a == b && bytesLt as bs)

/-- Insertion of an entry into entries sorted by key. -/
def insertEntry (kv : Bytes × List Bytes) : Header → Header
  | [] => [kv]
  | x :: xs => if bytesLt x.1 kv.1 then x :: insertEntry kv xs else kv :: x :: xs

/-- The entries of a map in the order the encoder writes them: sorted by key. -/
def sortEntries (h : Header) : Header := h.foldr insertEntry []

/-- The text of a map entry: the key, a colon, the values. -/
def entryText (kv : Bytes × List Bytes) : Bytes :=
  appendString kv.1 ++ [58] ++ encodeStringSlice kv.2

/-- The encoder of a `map[string][]string` that is not nil. -/
def encodeHeaderMap (h : Header) : Bytes :=
  [123] ++ joinComma ((sortEntries h).map entryText) ++ [125]

/-! ## `reflect.StructTag` and the field names of `encoding/json` -/

/-- A field of a struct type: its Go name and its tag, as written between the back quotes. -/
structure StructField where
  Name : Bytes
  Tag : Bytes
deriving DecidableEq, Repr

/-- The scan for the end of the quoted value in `StructTag.Lookup`: the index reached by
`for i < len(tag) && tag[i] != '"'`, a backslash skipping the byte after it. The first
argument is the text from index `i` on. -/
def scanQuoted : Bytes → Nat → Nat
  | [], i => i
  | c :: rest, i =>
    if c = 34 then i
    else if c = 92 then
      match rest with
      | [] => i + 2
      | _ :: rest2 => scanQuoted rest2 (i + 2)
    else scanQuoted rest (i + 1)

/-- `strconv.Unquote` on a double-quoted text without escape sequences: the text between
the quotes. Texts with a backslash are not covered (no tag of this repository has one). -/
def unquote (q : Bytes) : Option Bytes :=
  match q with
  | 34 :: rest =>
    if rest.getLast? = some 34 then
      let inner := rest.dropLast
      if 92 ∈ inner ∨ 34 ∈ inner ∨ 10 ∈ inner then none else some inner
    else none
  | _ => none

/-- `reflect.StructTag.Lookup`: the value of `key` in a tag made of `name:"value"` pairs
separated by spaces. The scan stops at the first pair that is not of that form. -/
def tagLookup (key : Bytes) : Nat → Bytes → Option Bytes
  | 0, _ => none
  | fuel + 1, tag0 =>
    let tag := tag0.dropWhile (fun c => c == 32)
    if tag = [] then none
    else
      let i := (tag.takeWhile (fun c => decide (c > 32) && c != 58 && c != 34 && c != 0x7f)).length
      if i = 0 ∨ i + 1 ≥ tag.length ∨ tag.getD i 0 ≠ 58 ∨ tag.getD (i + 1) 0 ≠ 34 then none
      else
        let name := tag.take i
        let tag1 := tag.drop (i + 1)
        let j := scanQuoted (tag1.drop 1) 1
        if j ≥ tag1.length then none
        else
          let qvalue := tag1.take (j + 1)
          let tag2 := tag1.drop (j + 1)
          if key = name then unquote qvalue
          else tagLookup key fuel tag2

/-- `reflect.StructTag.Get`: the value found by `Lookup`, `""` when there is none. -/
def tagGet (tag key : Bytes) : Bytes :=
  (tagLookup key tag.length tag).getD []

/-- `isValidTag` of `encoding/json`, on ASCII: letters, digits and the listed punctuation. -/
def isValidTag (s : Bytes) : Bool :=
  s != [] && s.all (fun c =>
    c ∈ bytesOf "!#$%&()*+-./:;<=>?@[]^_\x7b|\x7d~ " ||
    (decide (48 ≤ c) && decide (c ≤ 57)) || (decide (65 ≤ c) && decide (c ≤ 90)) ||
    (decide (97 ≤ c) && decide (c ≤ 122)))

/-- The name under which `encoding/json` writes a field (`typeFields`): the name given by
the `json` key of the tag, up to the first comma, when it is a valid one, and the Go name of
the field otherwise; `none` for a field tagged `-`, which is left out. The options after the
comma (`omitempty`, `string`) are not covered: no tag of this repository has one. -/
def jsonFieldName (sf : StructField) : Option Bytes :=
  let tag := tagGet sf.Tag (bytesOf "json")
  if tag = bytesOf "-" then none
  else
    let name := tag.takeWhile (fun c => c != 44)
    let name := if isValidTag name then name else []
    if name = [] then some sf.Name else some name

/-- The encoder of a struct whose fields have distinct names: the fields in order, each as
`"name":value`. -/
def structEncode (fs : List (StructField × Bytes)) : Bytes :=
  [123] ++
    joinComma (fs.filterMap (fun f =>
      (jsonFieldName f.1).map (fun n => appendString n ++ [58] ++ f.2)))
    ++ [125]

/-! ## The data of `types.go` and of a request -/

/-- `Request` of `types.go`: the stored object. -/
structure Request where
  Body : Bytes
  Headers : Header
  Uri : Bytes
deriving DecidableEq, Repr

/-- `Message` of `types.go`: the reference sent to the queue. -/
structure Message where
  Bucket : Bytes
  Key : Bytes
deriving DecidableEq, Repr

/-- The fields of `Request` as declared in `types.go`. -/
def requestFields : List StructField :=
  [⟨bytesOf "Body", bytesOf "json:\"body\""⟩,
   ⟨bytesOf "Headers", bytesOf "json:\"headers\""⟩,
   ⟨bytesOf "Uri", bytesOf "json:\"uri\""⟩]

/-- The fields of `Message` as declared in `types.go`. -/
def messageFields : List StructField :=
  [⟨bytesOf "Bucket", bytesOf "json:bucket"⟩,
   ⟨bytesOf "Key", bytesOf "json:key"⟩]

/-- `json.Marshal` on a `*Request`. -/
def jsonMarshalRequest (r : Request) : Bytes :=
  structEncode
    (requestFields.zip [appendString r.Body, encodeHeaderMap r.Headers, appendString r.Uri])

/-- `json.Marshal` on a `*Message`. -/
def jsonMarshalMessage (m : Message) : Bytes :=
  structEncode (messageFields.zip [appendString m.Bucket, appendString m.Key])

/-- What the handler reads of `*http.Request`. `URL` is `r.URL` as printed by `%s`, `Path` is
`r.URL.Path`, and `Body` is the outcome of `io.ReadAll(r.Body)`: the bytes, or the text of the
read error. -/
structure HttpRequest where
  Method : Bytes
  URL : Bytes
  Path : Bytes
  RequestURI : Bytes
  Header : Header
  Body : Except Bytes Bytes

/-- The answers of the collaborators. -/
structure Env where
  /-- `uuid.NewString()` -/
  newString : Bytes
  /-- `json.Marshal` on a `*Request` -/
  marshalRequest : Request → Except Bytes Bytes
  /-- `json.Marshal` on a `*Message` -/
  marshalMessage : Message → Except Bytes Bytes
  /-- `uploader.Upload` with bucket, key and body: the error, if any -/
  upload : Bytes → Bytes → Bytes → Option Bytes
  /-- `sqsClient.SendMessage` with queue url and message body: the error, if any -/
  sendMessage : Bytes → Bytes → Option Bytes

/-- The collaborators with the encoders of the Go standard library: `json.Marshal` does not
fail on a `Request` or a `Message`. -/
def goEnv (newString : Bytes) (upload : Bytes → Bytes → Bytes → Option Bytes)
    (sendMessage : Bytes → Bytes → Option Bytes) : Env where
  newString := newString
  marshalRequest := fun r => .ok (jsonMarshalRequest r)
  marshalMessage := fun m => .ok (jsonMarshalMessage m)
  upload := upload
  sendMessage := sendMessage

/-- The effects of handling a request. -/
inductive Event where
  | log (msg : Bytes)
  | newUuid
  | readAll
  | upload (bucket key body : Bytes)
  | sendMessage (queueUrl body : Bytes)
  | writeHeader (code : Nat)
  | write (data : Bytes)
deriving DecidableEq, Repr

/-- Whether the event is a call of `uploader.Upload`. -/
def Event.isUpload : Event → Bool
  | .upload _ _ _ => true
  | _ => false

/-- Whether the event is a call of `sqsClient.SendMessage`. -/
def Event.isSend : Event → Bool
  | .sendMessage _ _ => true
  | _ => false

/-- The keys of the store writes of a trace. -/
def storeKeys : List Event → List Bytes
  | [] => []
  | .upload _ key _ :: t => key :: storeKeys t
  | _ :: t => storeKeys t

/-- The message bodies of the queue publishes of a trace. -/
def sentMessages : List Event → List Bytes
  | [] => []
  | .sendMessage _ body :: t => body :: sentMessages t
  | _ :: t => sentMessages t

/-- The store writes of a trace. -/
def uploads (t : List Event) : List Event := t.filter Event.isUpload

/-- The queue publishes of a trace. -/
def sends (t : List Event) : List Event := t.filter Event.isSend

/-- The status line of the response: the code of the first `WriteHeader`, and 200 when the
body is written first or nothing is written. -/
def statusOf : List Event → Nat
  | [] => 200
  | .writeHeader c :: _ => c
  | .write _ :: _ => 200
  | _ :: t => statusOf t

/-- The response body: what was written, in order. -/
def bodyOf : List Event → Bytes
  | [] => []
  | .write d :: t => d ++ bodyOf t
  | _ :: t => bodyOf t

/-! ## `main.go` -/

/-- The global `bucket`. -/
def bucket : Bytes := bytesOf "some bucket"

/-- The global `queue`. -/
def queue : Bytes := bytesOf "https://some-aws-sqs-queue"

/-- `http.Header.Get`: the first value stored under the key, `""` when there is none. The key
`Fly-Request-Id` is already in canonical form, so it is looked up as written. -/
def headerGet (h : Header) (key : Bytes) : Bytes :=
  match h.lookup key with
  | some (v :: _) => v
  | _ => []

/-- `saveToS3`: the returned error and the effects. -/
def saveToS3 (env : Env) (bucket key : Bytes) (r : HttpRequest) : Option Bytes × List Event :=
  match r.Body with
  | .error err => (some (bytesOf "could not read request body: " ++ err), [.readAll])
  | .ok body =>
    match env.marshalRequest
        { Uri := r.RequestURI, Headers := r.Header, Body := base64Encode body } with
    | .error jsonErr => (some (bytesOf "could not marshal json: " ++ jsonErr), [.readAll])
    | .ok jsonBody =>
      match env.upload bucket key jsonBody with
      | some uploadErr =>
        (some (bytesOf "could not upload to s3: " ++ uploadErr),
          [.readAll, .upload bucket key jsonBody])
      | none => (none, [.readAll, .upload bucket key jsonBody])

/-- `sendToSqs`: the returned error and the effects. -/
def sendToSqs (env : Env) (queueUrl key : Bytes) : Option Bytes × List Event :=
  match env.marshalMessage { Bucket := bucket, Key := key } with
  | .error err => (some (bytesOf "could not marshal JSON: " ++ err), [])
  | .ok jsonMessage =>
    match env.sendMessage queueUrl jsonMessage with
    | some err =>
      (some (bytesOf "could not send to sqs: " ++ err), [.sendMessage queueUrl jsonMessage])
    | none => (none, [.sendMessage queueUrl jsonMessage])

/-- Lines 58-63 of the handler: the stored request file name and the effects of finding it. -/
def resolveKey (env : Env) (r : HttpRequest) : Bytes × List Event :=
  let key := headerGet r.Header (bytesOf "Fly-Request-Id")
  if key.length = 0 then
    (env.newString, [.log (bytesOf "no fly request id found, generating one"), .newUuid])
  else
    (key, [])

/-- The function registered with `http.HandleFunc("/", ...)`: its effects, in order, on a
request that `DefaultServeMux` hands to it. The mux in front of it is not part of this
definition: a request that the mux answers itself (the redirect for a path that is not in
canonical form, such as `//up`) never reaches this function. -/
def handler (env : Env) (r : HttpRequest) : List Event :=
  if r.Path = bytesOf "/up" then
    [.writeHeader 200, .write (bytesOf "up")]
  else
    let t0 := [Event.log (r.Method ++ bytesOf ": " ++ r.URL)]
    let (key, t1) := resolveKey env r
    match saveToS3 env bucket key r with
    | (some err, t2) =>
      t0 ++ t1 ++ t2 ++
        [.log (bytesOf "could not store request: " ++ err), .writeHeader 500,
         .write (bytesOf "server error")]
    | (none, t2) =>
      match sendToSqs env queue key with
      | (some err, t3) =>
        t0 ++ t1 ++ t2 ++ t3 ++
          [.log (bytesOf "could not queue request: " ++ err), .writeHeader 500,
           .write (bytesOf "server error")]
      | (none, t3) =>
        t0 ++ t1 ++ t2 ++ t3 ++ [.writeHeader 200, .write (bytesOf "done")]

/-! ## Reading a stored object back -/

/-- A JSON value. Numbers are left out: a stored object holds strings, arrays and objects. -/
inductive Json where
  | null
  | bool (b : Bool)
  | str (s : Bytes)
  | arr (xs : List Json)
  | obj (kvs : List (Bytes × Json))

/-- What the parser is reading: one value, the elements of an array up to `]`, or the members
of an object up to the closing brace. -/
inductive Mode where
  | value
  | elems
  | members

/-- The input without its leading insignificant whitespace. -/
def skipWs (input : Bytes) : Bytes :=
  input.dropWhile (fun c => c == 32 || c == 9 || c == 10 || c == 13)

/-- The value of a hexadecimal digit. -/
def hexVal (c : Nat) : Option Nat :=
  if 48 ≤ c ∧ c ≤ 57 then some (c - 48)
  else if 97 ≤ c ∧ c ≤ 102 then some (c - 87)
  else if 65 ≤ c ∧ c ≤ 70 then some (c - 55)
  else none

/-- The byte meant by a two-character escape. -/
def unescape (e : Nat) : Option Nat :=
  if e = 34 ∨ e = 92 ∨ e = 47 then some e
  else if e = 98 then some 8
  else if e = 102 then some 12
  else if e = 110 then some 10
  else if e = 114 then some 13
  else if e = 116 then some 9
  else none

/-- The string whose opening quote has been read: its content, unescaped, and the input after
the closing quote. A `\u` escape in the surrogate range gives U+FFFD. -/
def parseString : Bytes → Option (Bytes × Bytes)
  | [] => none
  | c :: rest =>
    if c = 34 then some ([], rest)
    else if c = 92 then
      match rest with
      | [] => none
      | e :: rest1 =>
        if e = 117 then
          match rest1 with
          | h3 :: h2 :: h1 :: h0 :: rest2 =>
            match hexVal h3, hexVal h2, hexVal h1, hexVal h0, parseString rest2 with
            | some d3, some d2, some d1, some d0, some (s, r) =>
              let cp := d3 * 4096 + d2 * 256 + d1 * 16 + d0
              some (utf8Encode (if 0xD800 ≤ cp ∧ cp < 0xE000 then runeError else cp) ++ s, r)
            | _, _, _, _, _ => none
          | _ => none
        else
          match unescape e, parseString rest1 with
          | some b, some (s, r) => some (b :: s, r)
          | _, _ => none
    else if c < 0x20 then none
    else
      match parseString rest with
      | some (s, r) => some (c :: s, r)
      | none => none

/-- The input after the given literal, when it starts with it. -/
def literal (lit input : Bytes) : Option Bytes :=
  if input.take lit.length = lit then some (input.drop lit.length) else none

/-- A recursive-descent JSON parser: the value read and the rest of the input. Each nested
value and each element or member costs one unit of fuel. -/
def parse : Nat → Mode → Bytes → Option (Json × Bytes)
  | 0, _, _ => none
  | fuel + 1, .value, input =>
    match skipWs input with
    | [] => none
    | c :: rest =>
      if c = 34 then
        match parseString rest with
        | some (s, r) => some (.str s, r)
        | none => none
      else if c = 91 then
        match skipWs rest with
        | [] => none
        | d :: rest1 => if d = 93 then some (.arr [], rest1) else parse fuel .elems rest
      else if c = 123 then
        match skipWs rest with
        | [] => none
        | d :: rest1 => if d = 125 then some (.obj [], rest1) else parse fuel .members rest
      else if c = 110 then (literal (bytesOf "ull") rest).map (fun r => (.null, r))
      else if c = 116 then (literal (bytesOf "rue") rest).map (fun r => (.bool true, r))
      else if c = 102 then (literal (bytesOf "alse") rest).map (fun r => (.bool false, r))
      else none
  | fuel + 1, .elems, input =>
    match parse fuel .value input with
    | none => none
    | some (v, rest) =>
      match skipWs rest with
      | [] => none
      | c :: rest1 =>
        if c = 93 then some (.arr [v], rest1)
        else if c = 44 then
          match parse fuel .elems rest1 with
          | some (.arr vs, rest2) => some (.arr (v :: vs), rest2)
          | _ => none
        else none
  | fuel + 1, .members, input =>
    match skipWs input with
    | [] => none
    | q :: rest =>
      if q = 34 then
        match parseString rest with
        | none => none
        | some (k, rest1) =>
          match skipWs rest1 with
          | [] => none
          | c :: rest2 =>
            if c = 58 then
              match parse fuel .value rest2 with
              | none => none
              | some (v, rest3) =>
                match skipWs rest3 with
                | [] => none
                | d :: rest4 =>
                  if d = 125 then some (.obj [(k, v)], rest4)
                  else if d = 44 then
                    match parse fuel .members rest4 with
                    | some (.obj kvs, rest5) => some (.obj ((k, v) :: kvs), rest5)
                    | _ => none
                  else none
            else none
      else none

/-- The JSON value a text stands for, when the whole text is one value. -/
def parseJson (input : Bytes) : Option Json :=
  match parse (input.length + 1) .value input with
  | some (v, rest) => if skipWs rest = [] then some v else none
  | none => none

/-- The request body kept in a stored object: the object is parsed, its `body` member is
taken and decoded from base64. -/
def storedBody (object : Bytes) : Option Bytes :=
  match parseJson object with
  | some (.obj kvs) =>
    match kvs.lookup (bytesOf "body") with
    | some (.str s) => base64Decode s
    | _ => none
  | _ => none

/-- The members of a queue message: the text is parsed as an object whose values are read
as strings. -/
def messageMembers (message : Bytes) : Option (List (Bytes × Bytes)) :=
  match parseJson message with
  | some (.obj kvs) =>
    kvs.mapM (fun kv => match kv.2 with | .str s => some (kv.1, s) | _ => none)
  | _ => none

/-! ## Requests and collaborators of the scenarios -/

/-- Whether the event writes to the response. -/
def Event.isOutput : Event → Bool
  | .writeHeader _ => true
  | .write _ => true
  | _ => false

/-- A byte that stands for itself inside a JSON string. -/
def plainByte (c : Nat) : Prop := 0x20 ≤ c ∧ c ≠ 34 ∧ c ≠ 92

/-- The request of end-to-end scenario 1: a `POST` with `Fly-Request-Id: abc123` and a
small JSON body. -/
def scenarioRequest : HttpRequest where
  Method := bytesOf "POST"
  URL := bytesOf "/hook"
  Path := bytesOf "/hook"
  RequestURI := bytesOf "/hook"
  Header := [(bytesOf "Fly-Request-Id", [bytesOf "abc123"])]
  Body := .ok (bytesOf "\x7b\"x\":1\x7d")

/-- A request without the correlation header, to the path `/UP`, with a body that is not
UTF-8. -/
def anonymousRequest : HttpRequest where
  Method := bytesOf "PUT"
  URL := bytesOf "/UP"
  Path := bytesOf "/UP"
  RequestURI := bytesOf "/UP"
  Header := [(bytesOf "Content-Type", [bytesOf "text/plain"])]
  Body := .ok [0, 255, 128]

/-- A request whose correlation header holds `k` followed by the byte `0xff`, which is not
UTF-8. -/
def rawKeyRequest : HttpRequest where
  Method := bytesOf "POST"
  URL := bytesOf "/hook"
  Path := bytesOf "/hook"
  RequestURI := bytesOf "/hook"
  Header := [(bytesOf "Fly-Request-Id", [[0x6b, 0xff]])]
  Body := .ok (bytesOf "\x7b\"x\":1\x7d")

/-- A request to `/` whose body stream breaks before its end. -/
def brokenBodyRequest : HttpRequest where
  Method := bytesOf "POST"
  URL := bytesOf "/"
  Path := bytesOf "/"
  RequestURI := bytesOf "/"
  Header := []
  Body := .error (bytesOf "unexpected EOF")

/-- A `POST` to the liveness route, with a body and a correlation header. -/
def upRequest : HttpRequest where
  Method := bytesOf "POST"
  URL := bytesOf "/up"
  Path := bytesOf "/up"
  RequestURI := bytesOf "/up"
  Header := [(bytesOf "Fly-Request-Id", [bytesOf "abc123"])]
  Body := .ok (bytesOf "\x7b\"x\":1\x7d")

/-- Collaborators that always answer with success. -/
def okEnv : Env :=
  goEnv (bytesOf "generated-uuid") (fun _ _ _ => none) (fun _ _ => none)

/-- Collaborators whose store refuses every write. -/
def storeDownEnv : Env :=
  goEnv (bytesOf "generated-uuid") (fun _ _ _ => some (bytesOf "unreachable"))
    (fun _ _ => none)

/-- Collaborators whose queue refuses every message. -/
def queueDownEnv : Env :=
  goEnv (bytesOf "generated-uuid") (fun _ _ _ => none)
    (fun _ _ => some (bytesOf "unreachable"))

/-! ## The stages of the handler -/

theorem saveToS3_error_iff (env : Env) (b k : Bytes) (r : HttpRequest) :
    (saveToS3 env b k r).1 ≠ none ↔
      ((∃ e, r.Body = .error e) ∨
       (∃ body e, r.Body = .ok body ∧
          env.marshalRequest ⟨base64Encode body, r.Header, r.RequestURI⟩ = .error e) ∨
       (∃ body o e, r.Body = .ok body ∧
          env.marshalRequest ⟨base64Encode body, r.Header, r.RequestURI⟩ = .ok o ∧
          env.upload b k o = some e)) := by
  unfold saveToS3
  cases hb : r.Body with
  | error e => simp
  | ok body =>
    cases hm : env.marshalRequest ⟨base64Encode body, r.Header, r.RequestURI⟩ with
    | error e => simp [hm]
    | ok o =>
      cases hu : env.upload b k o with
      | none => simp [hm, hu]
      | some e => simp [hm, hu]

theorem sends_saveToS3 (env : Env) (b k : Bytes) (r : HttpRequest) :
    sends (saveToS3 env b k r).2 = [] := by
  unfold saveToS3
  cases r.Body with
  | error e => simp [sends, Event.isSend]
  | ok body =>
    dsimp only
    cases env.marshalRequest ⟨base64Encode body, r.Header, r.RequestURI⟩ with
    | error e => simp [sends, Event.isSend]
    | ok o =>
      dsimp only
      cases env.upload b k o <;> simp [sends, Event.isSend]

theorem sends_resolveKey (env : Env) (r : HttpRequest) : sends (resolveKey env r).2 = [] := by
  unfold resolveKey
  dsimp only
  split <;> simp [sends, Event.isSend]

theorem uploads_resolveKey (env : Env) (r : HttpRequest) : uploads (resolveKey env r).2 = [] := by
  unfold resolveKey
  dsimp only
  split <;> simp [uploads, Event.isUpload]

theorem sends_append (s t : List Event) : sends (s ++ t) = sends s ++ sends t := by
  simp [sends]

theorem uploads_append (s t : List Event) : uploads (s ++ t) = uploads s ++ uploads t := by
  simp [uploads]

/-- The handler outside the liveness route, stage by stage. -/
theorem handler_pipeline (env : Env) (r : HttpRequest) (h : r.Path ≠ bytesOf "/up") :
    handler env r =
      [Event.log (r.Method ++ bytesOf ": " ++ r.URL)] ++ (resolveKey env r).2 ++
        (saveToS3 env bucket (resolveKey env r).1 r).2 ++
        (match (saveToS3 env bucket (resolveKey env r).1 r).1 with
         | some err =>
           [.log (bytesOf "could not store request: " ++ err), .writeHeader 500,
            .write (bytesOf "server error")]
         | none =>
           (sendToSqs env queue (resolveKey env r).1).2 ++
           (match (sendToSqs env queue (resolveKey env r).1).1 with
            | some err =>
              [.log (bytesOf "could not queue request: " ++ err), .writeHeader 500,
               .write (bytesOf "server error")]
            | none => [.writeHeader 200, .write (bytesOf "done")])) := by
  unfold handler
  rw [if_neg h]
  rcases hk : resolveKey env r with ⟨key, t1⟩
  dsimp only
  rcases hs : saveToS3 env bucket key r with ⟨e1, t2⟩
  cases e1 with
  | some err => simp
  | none =>
    dsimp only
    rcases hq : sendToSqs env queue key with ⟨e2, t3⟩
    cases e2 with
    | some err => simp
    | none => simp

theorem statusOf_append (s t : List Event) (hs : ∀ e ∈ s, e.isOutput = false) :
    statusOf (s ++ t) = statusOf t := by
  induction s with
  | nil => rfl
  | cons e s ih =>
    have he := hs e (List.mem_cons_self _ _)
    have ih' := ih (fun x hx => hs x (List.mem_cons_of_mem _ hx))
    cases e <;> simp_all [statusOf, Event.isOutput]

theorem bodyOf_append (s t : List Event) (hs : ∀ e ∈ s, e.isOutput = false) :
    bodyOf (s ++ t) = bodyOf t := by
  induction s with
  | nil => rfl
  | cons e s ih =>
    have he := hs e (List.mem_cons_self _ _)
    have ih' := ih (fun x hx => hs x (List.mem_cons_of_mem _ hx))
    cases e <;> simp_all [bodyOf, Event.isOutput]

theorem quiet_resolveKey (env : Env) (r : HttpRequest) :
    ∀ e ∈ (resolveKey env r).2, e.isOutput = false := by
  unfold resolveKey
  dsimp only
  split <;> simp [Event.isOutput]

theorem quiet_saveToS3 (env : Env) (b k : Bytes) (r : HttpRequest) :
    ∀ e ∈ (saveToS3 env b k r).2, e.isOutput = false := by
  unfold saveToS3
  cases r.Body with
  | error e => simp [Event.isOutput]
  | ok body =>
    dsimp only
    cases env.marshalRequest ⟨base64Encode body, r.Header, r.RequestURI⟩ with
    | error e => simp [Event.isOutput]
    | ok o =>
      dsimp only
      cases env.upload b k o <;> simp [Event.isOutput]

theorem quiet_sendToSqs (env : Env) (q k : Bytes) :
    ∀ e ∈ (sendToSqs env q k).2, e.isOutput = false := by
  unfold sendToSqs
  cases env.marshalMessage ⟨bucket, k⟩ with
  | error e => simp
  | ok m =>
    dsimp only
    cases env.sendMessage q m <;> simp [Event.isOutput]

theorem uploads_sendToSqs (env : Env) (q k : Bytes) : uploads (sendToSqs env q k).2 = [] := by
  unfold sendToSqs
  cases env.marshalMessage ⟨bucket, k⟩ with
  | error e => simp [uploads]
  | ok m =>
    dsimp only
    cases env.sendMessage q m <;> simp [uploads, Event.isUpload]

/-- The response of the pipeline: `200`/`done` when both stages return no error, and
`500`/`server error` otherwise. -/
theorem response_pipeline (env : Env) (r : HttpRequest) (h : r.Path ≠ bytesOf "/up") :
    (statusOf (handler env r), bodyOf (handler env r)) =
      if (saveToS3 env bucket (resolveKey env r).1 r).1 = none ∧
          (sendToSqs env queue (resolveKey env r).1).1 = none
      then (200, bytesOf "done") else (500, bytesOf "server error") := by
  rw [handler_pipeline env r h]
  have q1 := quiet_resolveKey env r
  have q2 := quiet_saveToS3 env bucket (resolveKey env r).1 r
  have q3 := quiet_sendToSqs env queue (resolveKey env r).1
  have q0 : ∀ m, ∀ e ∈ [Event.log m], e.isOutput = false := by
    simp [Event.isOutput]
  simp only [List.append_assoc]
  rw [statusOf_append _ _ (q0 _), statusOf_append _ _ q1, statusOf_append _ _ q2,
    bodyOf_append _ _ (q0 _), bodyOf_append _ _ q1, bodyOf_append _ _ q2]
  cases hs : (saveToS3 env bucket (resolveKey env r).1 r).1 with
  | some e => simp [statusOf, bodyOf]
  | none =>
    dsimp only
    rw [statusOf_append _ _ q3, bodyOf_append _ _ q3]
    cases hq : (sendToSqs env queue (resolveKey env r).1).1 with
    | some e => simp [statusOf, bodyOf]
    | none => simp [statusOf, bodyOf]

/-- The queue publishes of the pipeline. -/
theorem sends_pipeline (env : Env) (r : HttpRequest) (h : r.Path ≠ bytesOf "/up") :
    sends (handler env r) =
      match (saveToS3 env bucket (resolveKey env r).1 r).1 with
      | some _ => []
      | none => sends (sendToSqs env queue (resolveKey env r).1).2 := by
  rw [handler_pipeline env r h]
  simp only [sends_append, sends_resolveKey, sends_saveToS3]
  cases (saveToS3 env bucket (resolveKey env r).1 r).1 with
  | some e => simp [sends, Event.isSend]
  | none =>
    dsimp only
    cases (sendToSqs env queue (resolveKey env r).1).1 <;> simp [sends, Event.isSend]

/-- The store writes of the pipeline. -/
theorem uploads_pipeline (env : Env) (r : HttpRequest) (h : r.Path ≠ bytesOf "/up") :
    uploads (handler env r) = uploads (saveToS3 env bucket (resolveKey env r).1 r).2 := by
  rw [handler_pipeline env r h]
  simp only [uploads_append, uploads_resolveKey]
  cases (saveToS3 env bucket (resolveKey env r).1 r).1 with
  | some e => simp [uploads, Event.isUpload]
  | none =>
    dsimp only
    rw [uploads_append, uploads_sendToSqs]
    cases (sendToSqs env queue (resolveKey env r).1).1 <;> simp [uploads, Event.isUpload]

theorem saveToS3_ok (env : Env) (b k : Bytes) (r : HttpRequest)
    (h : (saveToS3 env b k r).1 = none) :
    ∃ body o, r.Body = .ok body ∧
      env.marshalRequest ⟨base64Encode body, r.Header, r.RequestURI⟩ = .ok o ∧
      env.upload b k o = none ∧ (saveToS3 env b k r).2 = [.readAll, .upload b k o] := by
  unfold saveToS3 at h ⊢
  cases hb : r.Body with
  | error e => simp [hb] at h
  | ok body =>
    cases hm : env.marshalRequest ⟨base64Encode body, r.Header, r.RequestURI⟩ with
    | error e => simp [hb, hm] at h
    | ok o =>
      cases hu : env.upload b k o with
      | some e => simp [hb, hm, hu] at h
      | none => exact ⟨body, o, rfl, hm, hu, by simp [hm, hu]⟩

theorem saveToS3_marshalled (env : Env) (b k : Bytes) (r : HttpRequest) (body o : Bytes)
    (hb : r.Body = .ok body)
    (hm : env.marshalRequest ⟨base64Encode body, r.Header, r.RequestURI⟩ = .ok o) :
    (saveToS3 env b k r).2 = [.readAll, .upload b k o] := by
  unfold saveToS3
  cases hu : env.upload b k o <;> simp [hb, hm, hu]

theorem saveToS3_unserialized (env : Env) (b k : Bytes) (r : HttpRequest)
    (hfail : (∃ e, r.Body = .error e) ∨
      ∃ body e, r.Body = .ok body ∧
        env.marshalRequest ⟨base64Encode body, r.Header, r.RequestURI⟩ = .error e) :
    (saveToS3 env b k r).1 ≠ none ∧ (saveToS3 env b k r).2 = [.readAll] := by
  unfold saveToS3
  rcases hfail with ⟨e, hb⟩ | ⟨body, e, hb, hm⟩
  · simp [hb]
  · simp [hb, hm]

theorem readAll_mem_saveToS3 (env : Env) (b k : Bytes) (r : HttpRequest) :
    Event.readAll ∈ (saveToS3 env b k r).2 := by
  unfold saveToS3
  cases r.Body with
  | error e => simp
  | ok body =>
    dsimp only
    cases env.marshalRequest ⟨base64Encode body, r.Header, r.RequestURI⟩ with
    | error e => simp
    | ok o =>
      dsimp only
      cases env.upload b k o <;> simp

theorem send_mem_sendToSqs (env : Env) (qu k q m : Bytes)
    (h : Event.sendMessage q m ∈ (sendToSqs env qu k).2) :
    q = qu ∧ env.marshalMessage ⟨bucket, k⟩ = .ok m := by
  unfold sendToSqs at h
  cases hm : env.marshalMessage ⟨bucket, k⟩ with
  | error e => simp [hm] at h
  | ok m' =>
    cases hs : env.sendMessage qu m' <;> simp [hm, hs] at h <;> simp [h]

theorem mem_sends (t : List Event) (q m : Bytes) :
    Event.sendMessage q m ∈ sends t ↔ Event.sendMessage q m ∈ t := by
  simp [sends, Event.isSend]

theorem mem_uploads (t : List Event) (b k o : Bytes) :
    Event.upload b k o ∈ uploads t ↔ Event.upload b k o ∈ t := by
  simp [uploads, Event.isUpload]

/-- A publish in the trace of the pipeline: the store stage returned no error, and the
publish is an effect of `sendToSqs` on the resolved key. -/
theorem send_mem_pipeline (env : Env) (r : HttpRequest) (h : r.Path ≠ bytesOf "/up")
    (q m : Bytes) (hm : Event.sendMessage q m ∈ handler env r) :
    (saveToS3 env bucket (resolveKey env r).1 r).1 = none ∧
      Event.sendMessage q m ∈ (sendToSqs env queue (resolveKey env r).1).2 := by
  rw [← mem_sends, sends_pipeline env r h] at hm
  cases hs : (saveToS3 env bucket (resolveKey env r).1 r).1 with
  | some e => simp [hs] at hm
  | none =>
    simp only [hs] at hm
    exact ⟨rfl, (mem_sends _ _ _).1 hm⟩

theorem newUuid_not_mem_saveToS3 (env : Env) (b k : Bytes) (r : HttpRequest) :
    Event.newUuid ∉ (saveToS3 env b k r).2 := by
  unfold saveToS3
  cases r.Body with
  | error e => simp
  | ok body =>
    dsimp only
    cases env.marshalRequest ⟨base64Encode body, r.Header, r.RequestURI⟩ with
    | error e => simp
    | ok o =>
      dsimp only
      cases env.upload b k o <;> simp

theorem newUuid_not_mem_sendToSqs (env : Env) (q k : Bytes) :
    Event.newUuid ∉ (sendToSqs env q k).2 := by
  unfold sendToSqs
  cases env.marshalMessage ⟨bucket, k⟩ with
  | error e => simp
  | ok m =>
    dsimp only
    cases env.sendMessage q m <;> simp

theorem newUuid_mem_pipeline (env : Env) (r : HttpRequest) (h : r.Path ≠ bytesOf "/up") :
    Event.newUuid ∈ handler env r ↔ Event.newUuid ∈ (resolveKey env r).2 := by
  rw [handler_pipeline env r h]
  have h2 := newUuid_not_mem_saveToS3 env bucket (resolveKey env r).1 r
  have h3 := newUuid_not_mem_sendToSqs env queue (resolveKey env r).1
  cases (saveToS3 env bucket (resolveKey env r).1 r).1 with
  | some e => simp [h2]
  | none =>
    cases (sendToSqs env queue (resolveKey env r).1).1 <;> simp [h2, h3]

theorem headerGet_of_lookup (hd : Header) (key h : Bytes) (vs : List Bytes)
    (hl : hd.lookup key = some (h :: vs)) : headerGet hd key = h := by
  simp [headerGet, hl]

theorem lookup_of_headerGet_nil (hd : Header) (key : Bytes) (hg : headerGet hd key = []) :
    hd.lookup key = none ∨ hd.lookup key = some [] ∨ ∃ vs, hd.lookup key = some ([] :: vs) := by
  unfold headerGet at hg
  cases hl : hd.lookup key with
  | none => simp
  | some v =>
    cases v with
    | nil => simp
    | cons a vs =>
      simp [hl] at hg
      simp [hg]

theorem resolveKey_of_header (env : Env) (r : HttpRequest) (hne : headerGet r.Header (bytesOf "Fly-Request-Id") ≠ []) :
    resolveKey env r = (headerGet r.Header (bytesOf "Fly-Request-Id"), []) := by
  unfold resolveKey
  simp [hne]

theorem resolveKey_generated (env : Env) (r : HttpRequest)
    (hu : Event.newUuid ∈ (resolveKey env r).2) :
    headerGet r.Header (bytesOf "Fly-Request-Id") = [] := by
  by_contra hne
  rw [resolveKey_of_header env r hne] at hu
  simp at hu

/-- The handler on the liveness route. -/
theorem handler_liveness (env : Env) (r : HttpRequest) (h : r.Path = bytesOf "/up") :
    handler env r = [.writeHeader 200, .write (bytesOf "up")] := by
  unfold handler
  rw [if_pos h]

theorem trace_split (A B pre post : List Event) (x : Event) (hx : x ∉ A)
    (h : A ++ B = pre ++ x :: post) : ∃ C, pre = A ++ C := by
  rcases List.append_eq_append_iff.1 h with ⟨a', hpre, _⟩ | ⟨c', hA, hc⟩
  · exact ⟨a', hpre⟩
  · cases c' with
    | nil => exact ⟨[], by simp [hA]⟩
    | cons c cs =>
      simp only [List.cons_append, List.cons.injEq] at hc
      exact absurd (by rw [hA, hc.1]; simp) hx

/-! ## `encoding/base64`: decoding what was encoded -/

theorem decodeChar_encodeChar : ∀ i, i < 64 → decodeChar (encodeChar i) = some i := by
  decide

theorem encodeChar_plain : ∀ i, i < 64 →
    htmlSafe (encodeChar i) = true ∧ encodeChar i ≠ 61 ∧ encodeChar i ≠ 10 ∧
      encodeChar i ≠ 13 := by
  decide

theorem decodeQuanta_quad (c0 c1 c2 c3 : Nat) (rest : Bytes) (h3 : c3 ≠ 61) :
    decodeQuanta (c0 :: c1 :: c2 :: c3 :: rest) =
      match decodeChar c0, decodeChar c1, decodeChar c2, decodeChar c3, decodeQuanta rest with
      | some s0, some s1, some s2, some s3, some tail =>
        some ((s0 * 4 + s1 / 16) % 256 :: (s1 * 16 + s2 / 4) % 256 :: (s2 * 64 + s3) % 256 :: tail)
      | _, _, _, _, _ => none := by
  rw [decodeQuanta]
  all_goals first
    | rfl
    | exact fun _ h _ => h3 h
    | exact fun h _ => h3 h

theorem decodeQuanta_pad1 (c0 c1 c2 : Nat) (h2 : c2 ≠ 61) :
    decodeQuanta [c0, c1, c2, 61] =
      match decodeChar c0, decodeChar c1, decodeChar c2 with
      | some s0, some s1, some s2 => some [(s0 * 4 + s1 / 16) % 256, (s1 * 16 + s2 / 4) % 256]
      | _, _, _ => none := by
  rw [decodeQuanta]
  all_goals first
    | rfl
    | exact fun h => h2 h

theorem decodeQuanta_encode (body : Bytes) (hb : ∀ b ∈ body, b < 256) :
    decodeQuanta (base64Encode body) = some body := by
  induction body using base64Encode.induct with
  | case1 => rfl
  | case2 a =>
    have ha : a < 256 := hb a (by simp)
    simp only [base64Encode, stdPadding]
    rw [decodeQuanta]
    rw [decodeChar_encodeChar _ (Nat.mod_lt _ (by decide)),
      decodeChar_encodeChar _ (Nat.mod_lt _ (by decide))]
    simp only [Option.some.injEq, List.cons.injEq, and_true]
    omega
  | case3 a b =>
    have ha : a < 256 := hb a (by simp)
    have hb' : b < 256 := hb b (by simp)
    simp only [base64Encode, stdPadding]
    rw [decodeQuanta_pad1 _ _ _ (encodeChar_plain _ (Nat.mod_lt _ (by decide))).2.1]
    rw [decodeChar_encodeChar _ (Nat.mod_lt _ (by decide)),
      decodeChar_encodeChar _ (Nat.mod_lt _ (by decide)),
      decodeChar_encodeChar _ (Nat.mod_lt _ (by decide))]
    simp only [Option.some.injEq, List.cons.injEq, and_true]
    omega
  | case4 a b c rest ih =>
    have ha : a < 256 := hb a (by simp)
    have hb' : b < 256 := hb b (by simp)
    have hc : c < 256 := hb c (by simp)
    have ih' := ih (fun x hx => hb x (by simp [hx]))
    simp only [base64Encode]
    rw [decodeQuanta_quad _ _ _ _ _ (encodeChar_plain _ (Nat.mod_lt _ (by decide))).2.1]
    rw [decodeChar_encodeChar _ (Nat.mod_lt _ (by decide)),
      decodeChar_encodeChar _ (Nat.mod_lt _ (by decide)),
      decodeChar_encodeChar _ (Nat.mod_lt _ (by decide)),
      decodeChar_encodeChar _ (Nat.mod_lt _ (by decide)), ih']
    simp only [Option.some.injEq, List.cons.injEq, and_true]
    omega

/-- Every character of a base64 text is one the JSON encoder writes as it is, and none is a
line break. -/
theorem base64Encode_plain (body : Bytes) :
    ∀ c ∈ base64Encode body, htmlSafe c = true ∧ c ≠ 10 ∧ c ≠ 13 := by
  have hp : htmlSafe stdPadding = true ∧ stdPadding ≠ 10 ∧ stdPadding ≠ 13 := by decide
  have he : ∀ i, htmlSafe (encodeChar (i % 64)) = true ∧ encodeChar (i % 64) ≠ 10 ∧
      encodeChar (i % 64) ≠ 13 := fun i =>
    let h := encodeChar_plain _ (Nat.mod_lt i (by decide))
    ⟨h.1, h.2.2.1, h.2.2.2⟩
  induction body using base64Encode.induct with
  | case1 => simp [base64Encode]
  | case2 a =>
    intro c hc
    simp only [base64Encode, List.mem_cons, List.mem_singleton, List.not_mem_nil, or_false] at hc
    rcases hc with rfl | rfl | rfl | rfl
    · exact he _
    · exact he _
    · exact hp
    · exact hp
  | case3 a b =>
    intro c hc
    simp only [base64Encode, List.mem_cons, List.mem_singleton, List.not_mem_nil, or_false] at hc
    rcases hc with rfl | rfl | rfl | rfl
    · exact he _
    · exact he _
    · exact he _
    · exact hp
  | case4 a b c rest ih =>
    intro x hx
    simp only [base64Encode, List.mem_cons] at hx
    rcases hx with rfl | rfl | rfl | rfl | hx
    · exact he _
    · exact he _
    · exact he _
    · exact he _
    · exact ih x hx

theorem base64Decode_encode (body : Bytes) (hb : ∀ b ∈ body, b < 256) :
    base64Decode (base64Encode body) = some body := by
  unfold base64Decode
  rw [List.filter_eq_self.2, decodeQuanta_encode body hb]
  intro c hc
  have := base64Encode_plain body c hc
  simp [this.2.1, this.2.2]

/-! ## `encoding/json`: reading what was written -/

theorem plainByte_of_htmlSafe (c : Nat) (h : htmlSafe c = true) : plainByte c := by
  simp only [htmlSafe, Bool.and_eq_true, decide_eq_true_eq, bne_iff_ne, ne_eq] at h
  exact ⟨h.1.1.1.1.1.1, h.1.1.1.1.2, h.2⟩

theorem parseString_cons_plain (c : Nat) (rest : Bytes) (h : plainByte c) :
    parseString (c :: rest) =
      match parseString rest with
      | some (s, r) => some (c :: s, r)
      | none => none := by
  obtain ⟨h1, h2, h3⟩ := h
  rw [parseString.eq_def]
  simp only [h2, h3, if_false]
  rw [if_neg (by omega)]

theorem parseString_plain (xs rest : Bytes) (h : ∀ c ∈ xs, plainByte c) :
    parseString (xs ++ rest) =
      match parseString rest with
      | some (s, r) => some (xs ++ s, r)
      | none => none := by
  induction xs with
  | nil =>
    rw [List.nil_append]
    rcases parseString rest with _ | ⟨s, r⟩ <;> rfl
  | cons x xs ih =>
    rw [List.cons_append, parseString_cons_plain x _ (h x (by simp)),
      ih (fun c hc => h c (by simp [hc]))]
    cases parseString rest <;> rfl

theorem parseString_quote (rest : Bytes) : parseString (34 :: rest) = some ([], rest) := by
  rw [parseString.eq_def]
  simp

theorem parseString_escape (e b : Nat) (rest : Bytes) (he : e ≠ 117) (hu : unescape e = some b) :
    parseString (92 :: e :: rest) =
      match parseString rest with
      | some (s, r) => some (b :: s, r)
      | none => none := by
  rw [parseString.eq_def]
  simp only [show (92 : Nat) ≠ 34 by decide, if_false, if_true, he, hu]
  cases parseString rest <;> rfl

theorem parseString_hex (h3 h2 h1 h0 d3 d2 d1 d0 : Nat) (rest : Bytes)
    (e3 : hexVal h3 = some d3) (e2 : hexVal h2 = some d2) (e1 : hexVal h1 = some d1)
    (e0 : hexVal h0 = some d0) :
    ∃ u, parseString (92 :: 117 :: h3 :: h2 :: h1 :: h0 :: rest) =
      match parseString rest with
      | some (s, r) => some (u ++ s, r)
      | none => none := by
  refine ⟨utf8Encode (if 0xD800 ≤ d3 * 4096 + d2 * 256 + d1 * 16 + d0 ∧
      d3 * 4096 + d2 * 256 + d1 * 16 + d0 < 0xE000 then runeError
      else d3 * 4096 + d2 * 256 + d1 * 16 + d0), ?_⟩
  rw [parseString.eq_def]
  simp only [show (92 : Nat) ≠ 34 by decide, if_false, if_true, e3, e2, e1, e0]
  cases parseString rest <;> rfl

theorem hexVal_hexDigit : ∀ x, x < 16 → (hexVal (hexDigit x)).isSome = true := by
  decide

theorem leadInfo_some (b sz lo hi : Nat) (h : leadInfo b = some (sz, lo, hi)) :
    0x80 ≤ lo ∧ (sz = 2 ∨ sz = 3 ∨ sz = 4) := by
  unfold leadInfo at h
  split_ifs at h <;> simp at h <;> omega

/-- A well-formed multi-byte sequence consists of bytes outside ASCII. -/
theorem decodeRune_take (b : Nat) (rest : Bytes) (hb : ¬ b < 0x80)
    (hv : ¬ ((decodeRune (b :: rest)).1 = runeError ∧ (decodeRune (b :: rest)).2 = 1)) :
    ∀ x ∈ (b :: rest).take (decodeRune (b :: rest)).2, 0x80 ≤ x := by
  unfold decodeRune at hv ⊢
  simp only [if_neg hb] at hv ⊢
  cases hl : leadInfo b with
  | none => simp [hl] at hv
  | some info =>
    obtain ⟨sz, lo, hi⟩ := info
    obtain ⟨hlo, hsz⟩ := leadInfo_some b sz lo hi hl
    simp only [hl] at hv ⊢
    rcases rest with _ | ⟨s1, _ | ⟨s2, _ | ⟨s3, tl⟩⟩⟩ <;>
      simp only [List.length_cons, List.length_nil, List.getD_cons_succ, List.getD_cons_zero,
        List.getD_nil] at hv ⊢ <;>
      split_ifs at hv ⊢ <;>
      simp_all <;> omega

theorem parseString_escapeByte (b : Nat) (hb : b < 0x80) (tail : Bytes) :
    ∃ u, parseString (escapeByte b ++ tail) =
      match parseString tail with
      | some (s, r) => some (u ++ s, r)
      | none => none := by
  unfold escapeByte
  split_ifs with h1 h2 h3 h4 h5 h6
  · refine ⟨[b], ?_⟩
    have hu : unescape b = some b := by
      rcases h1 with rfl | rfl <;> rfl
    have := parseString_escape b b tail (by rcases h1 with rfl | rfl <;> decide) hu
    simpa using this
  · exact ⟨[8], by simpa using parseString_escape 98 8 tail (by decide) rfl⟩
  · exact ⟨[12], by simpa using parseString_escape 102 12 tail (by decide) rfl⟩
  · exact ⟨[10], by simpa using parseString_escape 110 10 tail (by decide) rfl⟩
  · exact ⟨[13], by simpa using parseString_escape 114 13 tail (by decide) rfl⟩
  · exact ⟨[9], by simpa using parseString_escape 116 9 tail (by decide) rfl⟩
  · have hh := hexVal_hexDigit (b / 16) (by omega)
    have hl := hexVal_hexDigit (b % 16) (by omega)
    obtain ⟨d1, e1⟩ := Option.isSome_iff_exists.1 hh
    obtain ⟨d0, e0⟩ := Option.isSome_iff_exists.1 hl
    obtain ⟨u, hu⟩ := parseString_hex 48 48 (hexDigit (b / 16)) (hexDigit (b % 16)) 0 0 d1 d0
      tail rfl rfl e1 e0
    exact ⟨u, by simpa using hu⟩

/-- The parser reads every string the encoder writes, up to its closing quote. -/
theorem parseString_appendStringLoop (n : Nat) :
    ∀ src rest : Bytes, ∃ s, parseString (appendStringLoop n src ++ 34 :: rest) = some (s, rest) := by
  induction n with
  | zero =>
    intro src rest
    exact ⟨[], by rw [appendStringLoop]; exact parseString_quote rest⟩
  | succ n ih =>
    intro src rest
    cases src with
    | nil => exact ⟨[], by simp [appendStringLoop, parseString_quote]⟩
    | cons b tl =>
      rw [appendStringLoop]
      by_cases hb : b < 0x80
      · simp only [if_pos hb]
        by_cases hs : htmlSafe b = true
        · simp only [if_pos hs]
          obtain ⟨s, hs'⟩ := ih tl rest
          refine ⟨b :: s, ?_⟩
          rw [List.cons_append, parseString_cons_plain b _ (plainByte_of_htmlSafe b hs), hs']
        · simp only [if_neg hs]
          obtain ⟨s, hs'⟩ := ih tl rest
          obtain ⟨u, hu⟩ := parseString_escapeByte b hb (appendStringLoop n tl ++ 34 :: rest)
          refine ⟨u ++ s, ?_⟩
          rw [List.append_assoc, hu, hs']
      · simp only [if_neg hb]
        have hv := decodeRune_take b tl hb
        rcases hd : decodeRune (b :: tl) with ⟨c, size⟩
        rw [hd] at hv
        dsimp only at hv ⊢
        by_cases h1 : c = runeError ∧ size = 1
        · simp only [if_pos h1]
          obtain ⟨s, hs'⟩ := ih tl rest
          obtain ⟨u, hu⟩ := parseString_hex 102 102 102 100 15 15 15 13
            (appendStringLoop n tl ++ 34 :: rest) rfl rfl rfl rfl
          refine ⟨u ++ s, ?_⟩
          have : bytesOf "\\ufffd" = [92, 117, 102, 102, 102, 100] := by decide
          rw [this, List.append_assoc]
          simp only [List.cons_append, List.nil_append]
          rw [hu, hs']
        · simp only [if_neg h1]
          obtain ⟨s, hs'⟩ := ih (tl.drop (size - 1)) rest
          by_cases h2 : c = 0x2028 ∨ c = 0x2029
          · simp only [if_pos h2]
            have hx := hexVal_hexDigit (c % 16) (by omega)
            obtain ⟨d0, e0⟩ := Option.isSome_iff_exists.1 hx
            obtain ⟨u, hu⟩ := parseString_hex 50 48 50 (hexDigit (c % 16)) 2 0 2 d0
              (appendStringLoop n (tl.drop (size - 1)) ++ 34 :: rest) rfl rfl rfl e0
            refine ⟨u ++ s, ?_⟩
            have : bytesOf "\\u202" = [92, 117, 50, 48, 50] := by decide
            rw [this, List.append_assoc, List.append_assoc]
            simp only [List.cons_append, List.nil_append]
            rw [hu, hs']
          · simp only [if_neg h2]
            refine ⟨(b :: tl).take size ++ s, ?_⟩
            rw [List.append_assoc, parseString_plain _ _ (fun x hx => ?_), hs']
            have := hv h1 x hx
            exact ⟨by omega, by omega, by omega⟩

theorem appendStringLoop_plain (n : Nat) :
    ∀ src : Bytes, src.length ≤ n → (∀ c ∈ src, htmlSafe c = true) →
      appendStringLoop n src = src := by
  induction n with
  | zero =>
    intro src hn _
    have : src = [] := List.length_eq_zero.1 (by omega)
    subst this
    rfl
  | succ n ih =>
    intro src hn hs
    cases src with
    | nil => rfl
    | cons b tl =>
      have hb := hs b (by simp)
      have hlt : b < 128 := by
        simp only [htmlSafe, Bool.and_eq_true, decide_eq_true_eq] at hb
        exact hb.1.1.1.1.1.2
      rw [appendStringLoop]
      simp only [if_pos hlt, if_pos hb]
      rw [ih tl (by simpa using hn) (fun c hc => hs c (by simp [hc]))]

/-- A text of unescaped characters is written between quotes as it is. -/
theorem appendString_plain (src : Bytes) (hs : ∀ c ∈ src, htmlSafe c = true) :
    appendString src = 34 :: src ++ [34] := by
  unfold appendString
  rw [appendStringLoop_plain _ src (le_refl _) hs]
  rfl

/-- The parser reads a quoted text of unescaped characters back as it is. -/
theorem parseString_plain_quoted (src rest : Bytes) (hs : ∀ c ∈ src, htmlSafe c = true) :
    parseString (src ++ 34 :: rest) = some (src, rest) := by
  rw [parseString_plain src _ (fun c hc => plainByte_of_htmlSafe c (hs c hc)),
    parseString_quote]
  simp

theorem skipWs_cons (c : Nat) (rest : Bytes) (h : c ≠ 32 ∧ c ≠ 9 ∧ c ≠ 10 ∧ c ≠ 13) :
    skipWs (c :: rest) = c :: rest := by
  unfold skipWs
  rw [List.dropWhile_cons]
  simp [h.1, h.2.1, h.2.2.1, h.2.2.2]

/-- Reading a string value. -/
theorem parse_value_quoted (f : Nat) (inner rest s : Bytes)
    (h : parseString (inner ++ 34 :: rest) = some (s, rest)) :
    parse (f + 1) .value (34 :: inner ++ 34 :: rest) = some (.str s, rest) := by
  rw [parse, List.cons_append, skipWs_cons _ _ (by decide)]
  simp only [if_true, h]

/-- Reading the last element of an array. -/
theorem parse_elems_last (f : Nat) (V rest : Bytes) (v : Json)
    (h : parse f .value (V ++ 93 :: rest) = some (v, 93 :: rest)) :
    parse (f + 1) .elems (V ++ 93 :: rest) = some (.arr [v], rest) := by
  rw [parse]
  simp only [h]
  rw [skipWs_cons _ _ (by decide)]
  simp

/-- Reading an element of an array that is followed by others. -/
theorem parse_elems_more (f : Nat) (V T rest : Bytes) (v : Json) (vs : List Json)
    (h : parse f .value (V ++ 44 :: T) = some (v, 44 :: T))
    (ht : parse f .elems T = some (.arr vs, rest)) :
    parse (f + 1) .elems (V ++ 44 :: T) = some (.arr (v :: vs), rest) := by
  rw [parse]
  simp only [h]
  rw [skipWs_cons _ _ (by decide)]
  simp [ht]

/-- Reading the last member of an object. -/
theorem parse_members_last (f : Nat) (inner V rest k : Bytes) (v : Json)
    (hk : parseString (inner ++ 34 :: 58 :: (V ++ 125 :: rest)) =
      some (k, 58 :: (V ++ 125 :: rest)))
    (h : parse f .value (V ++ 125 :: rest) = some (v, 125 :: rest)) :
    parse (f + 1) .members (34 :: inner ++ 34 :: 58 :: (V ++ 125 :: rest)) =
      some (.obj [(k, v)], rest) := by
  rw [parse, List.cons_append, skipWs_cons _ _ (by decide)]
  simp only [if_true, hk]
  rw [skipWs_cons _ _ (by decide)]
  simp only [if_true, h]
  rw [skipWs_cons _ _ (by decide)]
  simp

/-- Reading a member of an object that is followed by others. -/
theorem parse_members_more (f : Nat) (inner V T rest k : Bytes) (v : Json)
    (kvs : List (Bytes × Json))
    (hk : parseString (inner ++ 34 :: 58 :: (V ++ 44 :: T)) = some (k, 58 :: (V ++ 44 :: T)))
    (h : parse f .value (V ++ 44 :: T) = some (v, 44 :: T))
    (ht : parse f .members T = some (.obj kvs, rest)) :
    parse (f + 1) .members (34 :: inner ++ 34 :: 58 :: (V ++ 44 :: T)) =
      some (.obj ((k, v) :: kvs), rest) := by
  rw [parse, List.cons_append, skipWs_cons _ _ (by decide)]
  simp only [if_true, hk]
  rw [skipWs_cons _ _ (by decide)]
  simp only [if_true, h]
  rw [skipWs_cons _ _ (by decide)]
  simp [ht]

theorem appendString_eq (s : Bytes) :
    appendString s = 34 :: appendStringLoop s.length s ++ [34] := rfl

theorem appendString_length (s : Bytes) : 2 ≤ (appendString s).length := by
  rw [appendString_eq]
  simp

/-- Reading a string the encoder wrote. -/
theorem parse_value_string (f : Nat) (s rest : Bytes) :
    ∃ s', parse (f + 1) .value (appendString s ++ rest) = some (.str s', rest) := by
  obtain ⟨s', hs⟩ := parseString_appendStringLoop s.length s rest
  refine ⟨s', ?_⟩
  rw [appendString_eq]
  have := parse_value_quoted f _ rest s' hs
  simpa using this

/-- Reading the elements of a `[]string` the encoder wrote. -/
theorem parse_elems_strings (xs : List Bytes) :
    ∀ (x : Bytes) (f : Nat) (rest : Bytes),
      (joinComma ((x :: xs).map appendString)).length ≤ f →
      ∃ vs, parse f .elems (joinComma ((x :: xs).map appendString) ++ 93 :: rest) =
        some (.arr vs, rest) := by
  induction xs with
  | nil =>
    intro x f rest hf
    simp only [List.map_cons, List.map_nil, joinComma] at hf ⊢
    have hl := appendString_length x
    obtain ⟨f1, rfl⟩ : ∃ f1, f = f1 + 1 + 1 := ⟨f - 2, by omega⟩
    obtain ⟨s', hs⟩ := parse_value_string f1 x (93 :: rest)
    exact ⟨[.str s'], parse_elems_last _ _ _ _ hs⟩
  | cons y ys ih =>
    intro x f rest hf
    simp only [List.map_cons, joinComma, List.length_append, List.length_cons,
      List.length_nil] at hf ⊢
    have hl := appendString_length x
    obtain ⟨f1, rfl⟩ : ∃ f1, f = f1 + 1 + 1 := ⟨f - 2, by omega⟩
    obtain ⟨vs, hvs⟩ := ih y (f1 + 1) rest (by simp only [List.map_cons]; omega)
    simp only [List.map_cons] at hvs
    obtain ⟨s', hs⟩ := parse_value_string f1 x
      (44 :: (joinComma (appendString y :: ys.map appendString) ++ 93 :: rest))
    refine ⟨.str s' :: vs, ?_⟩
    have := parse_elems_more (f1 + 1) (appendString x)
      (joinComma (appendString y :: ys.map appendString) ++ 93 :: rest) rest _ vs hs hvs
    simpa using this

/-- Reading a `[]string` the encoder wrote. -/
theorem parse_value_slice (xs : List Bytes) (f : Nat) (rest : Bytes)
    (hf : (encodeStringSlice xs).length ≤ f) :
    ∃ v, parse f .value (encodeStringSlice xs ++ rest) = some (v, rest) := by
  unfold encodeStringSlice at hf ⊢
  cases xs with
  | nil =>
    simp only [List.map_nil, joinComma, List.length_append, List.length_cons,
      List.length_nil] at hf
    obtain ⟨f1, rfl⟩ : ∃ f1, f = f1 + 1 := ⟨f - 1, by omega⟩
    refine ⟨.arr [], ?_⟩
    simp only [List.map_nil, joinComma, List.append_nil, List.cons_append, List.nil_append]
    rw [parse, skipWs_cons _ _ (by decide)]
    simp only [show (91 : Nat) ≠ 34 by decide, if_false, if_true]
    rw [skipWs_cons _ _ (by decide)]
    simp
  | cons x xs =>
    simp only [List.length_append, List.length_cons, List.length_nil] at hf
    obtain ⟨f1, rfl⟩ : ∃ f1, f = f1 + 1 := ⟨f - 1, by omega⟩
    obtain ⟨vs, hvs⟩ := parse_elems_strings xs x f1 rest (by omega)
    refine ⟨.arr vs, ?_⟩
    have hq : ∃ t, joinComma ((x :: xs).map appendString) = 34 :: t := by
      cases xs with
      | nil => exact ⟨_, by simp only [List.map_cons, List.map_nil, joinComma]; rfl⟩
      | cons y ys =>
        exact ⟨_, by simp only [List.map_cons, joinComma, appendString_eq]; rfl⟩
    obtain ⟨t, ht⟩ := hq
    simp only [List.cons_append, List.nil_append, List.append_assoc]
    rw [parse, skipWs_cons _ _ (by decide)]
    simp only [show (91 : Nat) ≠ 34 by decide, if_false, if_true]
    rw [ht, List.cons_append, skipWs_cons _ _ (by decide)]
    simp only [show (34 : Nat) ≠ 93 by decide, if_false]
    rw [← List.cons_append, ← ht]
    exact hvs

/-- Reading the entries of a header map the encoder wrote. -/
theorem parse_members_entries (es : Header) :
    ∀ (e : Bytes × List Bytes) (f : Nat) (rest : Bytes),
      (joinComma ((e :: es).map entryText)).length ≤ f →
      ∃ kvs, parse f .members (joinComma ((e :: es).map entryText) ++ 125 :: rest) =
        some (.obj kvs, rest) := by
  induction es with
  | nil =>
    intro e f rest hf
    simp only [List.map_cons, List.map_nil, joinComma, entryText, List.length_append,
      List.length_cons, List.length_nil] at hf ⊢
    have hl := appendString_length e.1
    obtain ⟨f1, rfl⟩ : ∃ f1, f = f1 + 1 := ⟨f - 1, by omega⟩
    obtain ⟨v, hv⟩ := parse_value_slice e.2 f1 (125 :: rest) (by omega)
    obtain ⟨k, hk⟩ := parseString_appendStringLoop e.1.length e.1
      (58 :: (encodeStringSlice e.2 ++ 125 :: rest))
    refine ⟨[(k, v)], ?_⟩
    have := parse_members_last f1 _ _ rest k v hk hv
    rw [appendString_eq]
    simpa using this
  | cons y ys ih =>
    intro e f rest hf
    simp only [List.map_cons, joinComma, List.length_append, List.length_cons,
      List.length_nil] at hf ⊢
    have hl := appendString_length e.1
    have he : (entryText e).length =
        (appendString e.1).length + 1 + (encodeStringSlice e.2).length := by
      simp [entryText]
      omega
    obtain ⟨f1, rfl⟩ : ∃ f1, f = f1 + 1 := ⟨f - 1, by omega⟩
    obtain ⟨kvs, hkvs⟩ := ih y f1 rest (by simp only [List.map_cons]; omega)
    simp only [List.map_cons] at hkvs
    obtain ⟨v, hv⟩ := parse_value_slice e.2 f1
      (44 :: (joinComma (entryText y :: ys.map entryText) ++ 125 :: rest)) (by omega)
    obtain ⟨k, hk⟩ := parseString_appendStringLoop e.1.length e.1
      (58 :: (encodeStringSlice e.2 ++
        44 :: (joinComma (entryText y :: ys.map entryText) ++ 125 :: rest)))
    refine ⟨(k, v) :: kvs, ?_⟩
    have := parse_members_more f1 _ _ _ rest k v kvs hk hv hkvs
    have hee : entryText e = appendString e.1 ++ [58] ++ encodeStringSlice e.2 := rfl
    rw [hee, appendString_eq]
    simpa using this

/-- Reading a header map the encoder wrote. -/
theorem parse_value_map (h : Header) (f : Nat) (rest : Bytes)
    (hf : (encodeHeaderMap h).length ≤ f) :
    ∃ v, parse f .value (encodeHeaderMap h ++ rest) = some (v, rest) := by
  have hm : encodeHeaderMap h = [123] ++ joinComma ((sortEntries h).map entryText) ++ [125] := rfl
  rw [hm] at hf ⊢
  cases hs : sortEntries h with
  | nil =>
    rw [hs] at hf
    simp only [List.map_nil, joinComma, List.length_append, List.length_cons,
      List.length_nil] at hf
    obtain ⟨f1, rfl⟩ : ∃ f1, f = f1 + 1 := ⟨f - 1, by omega⟩
    refine ⟨.obj [], ?_⟩
    simp only [List.map_nil, joinComma, List.append_nil, List.cons_append, List.nil_append]
    rw [parse, skipWs_cons _ _ (by decide)]
    simp only [show (123 : Nat) ≠ 34 by decide, show (123 : Nat) ≠ 91 by decide, if_false,
      if_true]
    rw [skipWs_cons _ _ (by decide)]
    simp
  | cons e es =>
    rw [hs] at hf
    simp only [List.length_append, List.length_cons, List.length_nil] at hf
    obtain ⟨f1, rfl⟩ : ∃ f1, f = f1 + 1 := ⟨f - 1, by omega⟩
    obtain ⟨kvs, hkvs⟩ := parse_members_entries es e f1 rest (by omega)
    refine ⟨.obj kvs, ?_⟩
    have hq : ∃ t, joinComma ((e :: es).map entryText) = 34 :: t := by
      cases es with
      | nil =>
        exact ⟨_, by simp only [List.map_cons, List.map_nil, joinComma, entryText,
          appendString_eq]; rfl⟩
      | cons y ys =>
        exact ⟨_, by simp only [List.map_cons, joinComma, entryText, appendString_eq]; rfl⟩
    obtain ⟨t, ht⟩ := hq
    simp only [List.cons_append, List.nil_append, List.append_assoc]
    rw [parse, skipWs_cons _ _ (by decide)]
    simp only [show (123 : Nat) ≠ 34 by decide, show (123 : Nat) ≠ 91 by decide, if_false,
      if_true]
    rw [ht, List.cons_append, skipWs_cons _ _ (by decide)]
    simp only [show (34 : Nat) ≠ 125 by decide, if_false]
    rw [← List.cons_append, ← ht]
    exact hkvs

/-- The loop of `appendString` ends within the fuel it is given: more fuel than the length
of the text changes nothing. -/
theorem appendStringLoop_fuel (n : Nat) :
    ∀ (m : Nat) (src : Bytes), src.length ≤ n → src.length ≤ m →
      appendStringLoop n src = appendStringLoop m src := by
  induction n with
  | zero =>
    intro m src hn _
    have : src = [] := List.length_eq_zero.1 (by omega)
    subst this
    cases m <;> simp [appendStringLoop]
  | succ n ih =>
    intro m src hn hm
    cases src with
    | nil => cases m <;> simp [appendStringLoop]
    | cons b tl =>
      obtain ⟨m', rfl⟩ : ∃ m', m = m' + 1 := ⟨m - 1, by simp at hm; omega⟩
      simp only [List.length_cons, Nat.add_le_add_iff_right] at hn hm
      have hd : ∀ k, (tl.drop k).length ≤ tl.length := fun k => by simp
      rw [appendStringLoop, appendStringLoop, ih m' tl hn hm]
      rcases decodeRune (b :: tl) with ⟨c, size⟩
      dsimp only
      rw [ih m' (tl.drop (size - 1)) (le_trans (hd _) hn) (le_trans (hd _) hm)]

theorem structEncode_three (f1 f2 f3 : StructField) (n1 n2 n3 v1 v2 v3 : Bytes)
    (h1 : jsonFieldName f1 = some n1) (h2 : jsonFieldName f2 = some n2)
    (h3 : jsonFieldName f3 = some n3) :
    structEncode [(f1, v1), (f2, v2), (f3, v3)] =
      123 :: (appendString n1 ++ 58 :: (v1 ++ 44 :: (appendString n2 ++ 58 :: (v2 ++
        44 :: (appendString n3 ++ 58 :: (v3 ++ [125])))))) := by
  simp [structEncode, h1, h2, h3, joinComma]

theorem jsonMarshalRequest_eq (r : Request) :
    jsonMarshalRequest r =
      123 :: (34 :: bytesOf "body" ++ 34 :: 58 :: (appendString r.Body ++
        44 :: (34 :: bytesOf "headers" ++ 34 :: 58 :: (encodeHeaderMap r.Headers ++
        44 :: (34 :: bytesOf "uri" ++ 34 :: 58 :: (appendString r.Uri ++ [125])))))) := by
  have a1 : appendString (bytesOf "body") = 34 :: bytesOf "body" ++ [34] := by decide
  have a2 : appendString (bytesOf "headers") = 34 :: bytesOf "headers" ++ [34] := by decide
  have a3 : appendString (bytesOf "uri") = 34 :: bytesOf "uri" ++ [34] := by decide
  have e := structEncode_three ⟨bytesOf "Body", bytesOf "json:\"body\""⟩
    ⟨bytesOf "Headers", bytesOf "json:\"headers\""⟩ ⟨bytesOf "Uri", bytesOf "json:\"uri\""⟩
    (bytesOf "body") (bytesOf "headers") (bytesOf "uri")
    (appendString r.Body) (encodeHeaderMap r.Headers) (appendString r.Uri)
    (by decide) (by decide) (by decide)
  rw [a1, a2, a3] at e
  have e2 : jsonMarshalRequest r = structEncode
      [(⟨bytesOf "Body", bytesOf "json:\"body\""⟩, appendString r.Body),
       (⟨bytesOf "Headers", bytesOf "json:\"headers\""⟩, encodeHeaderMap r.Headers),
       (⟨bytesOf "Uri", bytesOf "json:\"uri\""⟩, appendString r.Uri)] := rfl
  rw [e2, e]
  simp

/-- Reading the members of a stored object. -/
theorem parse_members_request (b64 uri : Bytes) (hdr : Header)
    (hb : ∀ c ∈ b64, htmlSafe c = true) (f : Nat) (hf : (encodeHeaderMap hdr).length + 2 ≤ f) :
    ∃ hv u, parse f .members
        (34 :: bytesOf "body" ++ 34 :: 58 :: (appendString b64 ++
          44 :: (34 :: bytesOf "headers" ++ 34 :: 58 :: (encodeHeaderMap hdr ++
          44 :: (34 :: bytesOf "uri" ++ 34 :: 58 :: (appendString uri ++ 125 :: [])))))) =
      some (.obj [(bytesOf "body", .str b64), (bytesOf "headers", hv),
        (bytesOf "uri", .str u)], []) := by
  have hm : 2 ≤ (encodeHeaderMap hdr).length := by
    have : encodeHeaderMap hdr =
        [123] ++ joinComma ((sortEntries hdr).map entryText) ++ [125] := rfl
    rw [this]
    simp
  obtain ⟨f3, rfl⟩ : ∃ f3, f = f3 + 1 + 1 + 1 := ⟨f - 3, by omega⟩
  obtain ⟨f4, rfl⟩ : ∃ f4, f3 = f4 + 1 := ⟨f3 - 1, by omega⟩
  -- the member `uri`
  obtain ⟨u, hu⟩ := parse_value_string f4 uri (125 :: [])
  have k3 : ∀ X, parseString (bytesOf "uri" ++ 34 :: X) = some (bytesOf "uri", X) :=
    fun X => parseString_plain_quoted _ X (by decide)
  have m3 := parse_members_last (f4 + 1) (bytesOf "uri") (appendString uri) []
    (bytesOf "uri") (.str u) (k3 _) hu
  -- the member `headers`
  obtain ⟨hv, hhv⟩ := parse_value_map hdr (f4 + 1 + 1)
    (44 :: (34 :: bytesOf "uri" ++ 34 :: 58 :: (appendString uri ++ 125 :: []))) (by omega)
  have k2 : ∀ X, parseString (bytesOf "headers" ++ 34 :: X) = some (bytesOf "headers", X) :=
    fun X => parseString_plain_quoted _ X (by decide)
  have m2 := parse_members_more (f4 + 1 + 1) (bytesOf "headers") (encodeHeaderMap hdr)
    (34 :: bytesOf "uri" ++ 34 :: 58 :: (appendString uri ++ 125 :: [])) []
    (bytesOf "headers") hv [(bytesOf "uri", .str u)] (k2 _) hhv m3
  -- the member `body`
  have hv1 : parse (f4 + 1 + 1 + 1) .value (appendString b64 ++
      44 :: (34 :: bytesOf "headers" ++ 34 :: 58 :: (encodeHeaderMap hdr ++
        44 :: (34 :: bytesOf "uri" ++ 34 :: 58 :: (appendString uri ++ 125 :: [])))))
      = some (.str b64, 44 :: (34 :: bytesOf "headers" ++ 34 :: 58 :: (encodeHeaderMap hdr ++
        44 :: (34 :: bytesOf "uri" ++ 34 :: 58 :: (appendString uri ++ 125 :: []))))) := by
    rw [appendString_plain b64 hb]
    have := parse_value_quoted (f4 + 1 + 1) b64
      (44 :: (34 :: bytesOf "headers" ++ 34 :: 58 :: (encodeHeaderMap hdr ++
        44 :: (34 :: bytesOf "uri" ++ 34 :: 58 :: (appendString uri ++ 125 :: [])))))
      b64 (parseString_plain_quoted b64 _ hb)
    simpa using this
  have k1 : ∀ X, parseString (bytesOf "body" ++ 34 :: X) = some (bytesOf "body", X) :=
    fun X => parseString_plain_quoted _ X (by decide)
  have m1 := parse_members_more (f4 + 1 + 1 + 1) (bytesOf "body") (appendString b64)
    (34 :: bytesOf "headers" ++ 34 :: 58 :: (encodeHeaderMap hdr ++
      44 :: (34 :: bytesOf "uri" ++ 34 :: 58 :: (appendString uri ++ 125 :: [])))) []
    (bytesOf "body") (.str b64) [(bytesOf "headers", hv), (bytesOf "uri", .str u)]
    (k1 _) hv1 m2
  exact ⟨hv, u, m1⟩

/-- A stored object parses to an object whose `body` member is the base64 text. -/
theorem parseJson_stored (b64 uri : Bytes) (hdr : Header) (hb : ∀ c ∈ b64, htmlSafe c = true) :
    ∃ hv u, parseJson (jsonMarshalRequest ⟨b64, hdr, uri⟩) =
      some (.obj [(bytesOf "body", .str b64), (bytesOf "headers", hv),
        (bytesOf "uri", .str u)]) := by
  have hlen : (encodeHeaderMap hdr).length + 2 ≤ (jsonMarshalRequest ⟨b64, hdr, uri⟩).length := by
    rw [jsonMarshalRequest_eq]
    simp only [List.length_cons, List.length_append]
    omega
  unfold parseJson
  generalize (jsonMarshalRequest ⟨b64, hdr, uri⟩).length = L at hlen ⊢
  obtain ⟨hv, u, hp⟩ := parse_members_request b64 uri hdr hb L hlen
  refine ⟨hv, u, ?_⟩
  rw [jsonMarshalRequest_eq]
  rw [parse, skipWs_cons _ _ (by decide)]
  simp only [show (123 : Nat) ≠ 34 by decide, show (123 : Nat) ≠ 91 by decide, if_false,
    if_true]
  rw [List.cons_append, skipWs_cons _ _ (by decide)]
  simp only [show (34 : Nat) ≠ 125 by decide, if_false]
  rw [← List.cons_append, hp]
  simp [skipWs]

/-- The body kept in a stored object is the body that was encoded into it. -/
theorem storedBody_marshal (body uri : Bytes) (hdr : Header) (hb : ∀ b ∈ body, b < 256) :
    storedBody (jsonMarshalRequest ⟨base64Encode body, hdr, uri⟩) = some body := by
  obtain ⟨hv, u, hp⟩ := parseJson_stored (base64Encode body) uri hdr
    (fun c hc => (base64Encode_plain body c hc).1)
  unfold storedBody
  rw [hp]
  simp only [List.lookup, beq_self_eq_true]
  exact base64Decode_encode body hb

theorem structEncode_two (f1 f2 : StructField) (n1 n2 v1 v2 : Bytes)
    (h1 : jsonFieldName f1 = some n1) (h2 : jsonFieldName f2 = some n2) :
    structEncode [(f1, v1), (f2, v2)] =
      123 :: (appendString n1 ++ 58 :: (v1 ++ 44 :: (appendString n2 ++ 58 :: (v2 ++ [125])))) := by
  simp [structEncode, h1, h2, joinComma]

/-! ## `encoding/json`: reading well-formed UTF-8 back as it was -/

theorem hexVal_hexDigit_eq : ∀ x, x < 16 → hexVal (hexDigit x) = some x := by
  decide

theorem parseString_hex_eq (h3 h2 h1 h0 d3 d2 d1 d0 : Nat) (rest : Bytes)
    (e3 : hexVal h3 = some d3) (e2 : hexVal h2 = some d2) (e1 : hexVal h1 = some d1)
    (e0 : hexVal h0 = some d0) :
    parseString (92 :: 117 :: h3 :: h2 :: h1 :: h0 :: rest) =
      match parseString rest with
      | some (s, r) =>
        some (utf8Encode (if 0xD800 ≤ d3 * 4096 + d2 * 256 + d1 * 16 + d0 ∧
          d3 * 4096 + d2 * 256 + d1 * 16 + d0 < 0xE000 then runeError
          else d3 * 4096 + d2 * 256 + d1 * 16 + d0) ++ s, r)
      | none => none := by
  rw [parseString.eq_def]
  simp only [show (92 : Nat) ≠ 34 by decide, if_false, if_true, e3, e2, e1, e0]
  cases parseString rest <;> rfl

/-- The escape of an ASCII byte is read back as that byte. -/
theorem parseString_escapeByte_eq (b : Nat) (hb : b < 0x80) (tail : Bytes) :
    parseString (escapeByte b ++ tail) =
      match parseString tail with
      | some (s, r) => some (b :: s, r)
      | none => none := by
  unfold escapeByte
  split_ifs with h1 h2 h3 h4 h5 h6
  · have hu : unescape b = some b := by
      rcases h1 with rfl | rfl <;> rfl
    have := parseString_escape b b tail (by rcases h1 with rfl | rfl <;> decide) hu
    simpa using this
  · subst h2
    simpa using parseString_escape 98 8 tail (by decide) rfl
  · subst h3
    simpa using parseString_escape 102 12 tail (by decide) rfl
  · subst h4
    simpa using parseString_escape 110 10 tail (by decide) rfl
  · subst h5
    simpa using parseString_escape 114 13 tail (by decide) rfl
  · subst h6
    simpa using parseString_escape 116 9 tail (by decide) rfl
  · have e1 := hexVal_hexDigit_eq (b / 16) (by omega)
    have e0 := hexVal_hexDigit_eq (b % 16) (by omega)
    have hu := parseString_hex_eq 48 48 (hexDigit (b / 16)) (hexDigit (b % 16)) 0 0 (b / 16)
      (b % 16) tail rfl rfl e1 e0
    have hcp : 0 * 4096 + 0 * 256 + b / 16 * 16 + b % 16 = b := by omega
    rw [hcp] at hu
    have hns : ¬ (0xD800 ≤ b ∧ b < 0xE000) := by omega
    rw [if_neg hns] at hu
    have hen : utf8Encode b = [b] := by
      unfold utf8Encode
      rw [if_pos hb]
    rw [hen] at hu
    simpa using hu

theorem decodeRune_size_pos (b : Nat) (rest : Bytes) : 1 ≤ (decodeRune (b :: rest)).2 := by
  unfold decodeRune
  by_cases hb : b < 0x80
  · simp only [if_pos hb]
    exact le_refl 1
  · simp only [if_neg hb]
    cases hl : leadInfo b with
    | none => exact le_refl 1
    | some info =>
      obtain ⟨sz, lo, hi⟩ := info
      dsimp only
      split_ifs <;> simp

theorem leadInfo_cases (b sz lo hi : Nat) (h : leadInfo b = some (sz, lo, hi)) :
    (sz = 2 ∧ b < 0xE0) ∨
    (sz = 3 ∧ 0xE0 ≤ b ∧ b < 0xF0 ∧ 0x80 ≤ lo ∧ hi ≤ 0xBF) ∨
    (sz = 4 ∧ 0xF0 ≤ b ∧ b ≤ 0xF4 ∧ (b = 0xF0 → 0x90 ≤ lo) ∧ 0x80 ≤ lo ∧ hi ≤ 0xBF) := by
  unfold leadInfo at h
  split_ifs at h <;> simp at h <;> omega

/-- The only well-formed sequences for U+2028 and U+2029. -/
theorem decodeRune_line_separator (b : Nat) (rest : Bytes) (hb : ¬ b < 0x80)
    (hc : (decodeRune (b :: rest)).1 = 0x2028 ∨ (decodeRune (b :: rest)).1 = 0x2029) :
    (b :: rest).take (decodeRune (b :: rest)).2 = utf8Encode (decodeRune (b :: rest)).1 := by
  unfold decodeRune at hc ⊢
  simp only [if_neg hb] at hc ⊢
  cases hl : leadInfo b with
  | none => simp [hl, runeError] at hc
  | some info =>
    obtain ⟨sz, lo, hi⟩ := info
    simp only [hl] at hc ⊢
    rcases leadInfo_cases b sz lo hi hl with ⟨rfl, h2⟩ | ⟨rfl, h3a, h3b, h3c, h3d⟩ |
      ⟨rfl, h4a, h4b, h4c, h4d, h4e⟩
    · -- two bytes: the rune is below U+0800
      exfalso
      split_ifs at hc <;> simp only [runeError] at hc <;> omega
    · -- three bytes
      rcases rest with _ | ⟨s1, _ | ⟨s2, tl⟩⟩
      · simp [runeError] at hc
      · simp [runeError] at hc
      · simp only [List.length_cons, List.getD_cons_succ, List.getD_cons_zero] at hc ⊢
        split_ifs at hc ⊢ with g1 g2 g3 g4 g5
        all_goals try (simp only [runeError] at hc; omega)
        have hb2 : b = 0xE2 := by omega
        have hs1 : s1 = 0x80 := by omega
        rcases hc with hc | hc
        · have hs2 : s2 = 0xA8 := by omega
          subst hb2 hs1 hs2
          rfl
        · have hs2 : s2 = 0xA9 := by omega
          subst hb2 hs1 hs2
          rfl
    · -- four bytes: the rune is above U+FFFF
      exfalso
      have h4c' : b = 0xF0 → 0x90 ≤ lo := h4c
      split_ifs at hc <;> simp only [runeError] at hc <;> omega

/-- The parser reads a well-formed UTF-8 text back as the encoder was given it. -/
theorem parseString_appendStringLoop_valid (n : Nat) :
    ∀ src rest : Bytes, validLoop n src = true →
      parseString (appendStringLoop n src ++ 34 :: rest) = some (src, rest) := by
  induction n with
  | zero =>
    intro src rest hv
    cases src with
    | nil => rw [appendStringLoop]; exact parseString_quote rest
    | cons b tl => simp [validLoop] at hv
  | succ n ih =>
    intro src rest hv
    cases src with
    | nil => simp [appendStringLoop, parseString_quote]
    | cons b tl =>
      rw [validLoop] at hv
      rw [appendStringLoop]
      by_cases hb : b < 0x80
      · simp only [if_pos hb] at hv ⊢
        have ht := ih tl rest hv
        by_cases hs : htmlSafe b = true
        · simp only [if_pos hs]
          rw [List.cons_append, parseString_cons_plain b _ (plainByte_of_htmlSafe b hs), ht]
        · simp only [if_neg hs]
          rw [List.append_assoc, parseString_escapeByte_eq b hb, ht]
      · simp only [if_neg hb] at hv ⊢
        have hp := decodeRune_size_pos b tl
        have htake := decodeRune_take b tl hb
        have hsep := decodeRune_line_separator b tl hb
        rcases hd : decodeRune (b :: tl) with ⟨c, size⟩
        rw [hd] at hp htake hsep hv
        dsimp only at hp htake hsep hv ⊢
        by_cases h1 : c = runeError ∧ size = 1
        · simp [h1] at hv
        · simp only [if_neg h1] at hv ⊢
          have ht := ih (tl.drop (size - 1)) rest hv
          have hsplit : (b :: tl).take size ++ tl.drop (size - 1) = b :: tl := by
            obtain ⟨k, rfl⟩ : ∃ k, size = k + 1 := ⟨size - 1, by omega⟩
            simp
          by_cases h2 : c = 0x2028 ∨ c = 0x2029
          · simp only [if_pos h2]
            have e0 := hexVal_hexDigit_eq (c % 16) (by omega)
            have hu := parseString_hex_eq 50 48 50 (hexDigit (c % 16)) 2 0 2 (c % 16)
              (appendStringLoop n (tl.drop (size - 1)) ++ 34 :: rest) rfl rfl rfl e0
            have hcp : 2 * 4096 + 0 * 256 + 2 * 16 + c % 16 = c := by
              rcases h2 with rfl | rfl <;> rfl
            rw [hcp, if_neg (by rcases h2 with rfl | rfl <;> decide), ht] at hu
            have : bytesOf "\\u202" = [92, 117, 50, 48, 50] := by decide
            rw [this, List.append_assoc, List.append_assoc]
            simp only [List.cons_append, List.nil_append]
            rw [hu, ← hsep h2]
            dsimp only
            rw [hsplit]
          · simp only [if_neg h2]
            rw [List.append_assoc, parseString_plain _ _ (fun x hx => ?_), ht]
            · simp only
              rw [hsplit]
            · have := htake h1 x hx
              exact ⟨by omega, by omega, by omega⟩

/-- Reading a string the encoder wrote from well-formed UTF-8. -/
theorem parse_value_string_valid (f : Nat) (s rest : Bytes) (hv : utf8Valid s = true) :
    parse (f + 1) .value (appendString s ++ rest) = some (.str s, rest) := by
  have hs := parseString_appendStringLoop_valid s.length s rest hv
  rw [appendString_eq]
  have := parse_value_quoted f _ rest s hs
  simpa using this

theorem jsonMarshalMessage_eq (m : Message) :
    jsonMarshalMessage m =
      123 :: (34 :: bytesOf "Bucket" ++ 34 :: 58 :: (appendString m.Bucket ++
        44 :: (34 :: bytesOf "Key" ++ 34 :: 58 :: (appendString m.Key ++ [125])))) := by
  have e : jsonMarshalMessage m = structEncode
      [(⟨bytesOf "Bucket", bytesOf "json:bucket"⟩, appendString m.Bucket),
       (⟨bytesOf "Key", bytesOf "json:key"⟩, appendString m.Key)] := rfl
  have a1 : appendString (bytesOf "Bucket") = 34 :: bytesOf "Bucket" ++ [34] := by decide
  have a2 : appendString (bytesOf "Key") = 34 :: bytesOf "Key" ++ [34] := by decide
  rw [e, structEncode_two _ _ (bytesOf "Bucket") (bytesOf "Key") _ _ (by decide) (by decide),
    a1, a2]
  simp

/-- A reader of the queue message finds the bucket and the key it was encoded from, when
these are well-formed UTF-8. -/
theorem messageMembers_marshal (m : Message) (hb : utf8Valid m.Bucket = true)
    (hk : utf8Valid m.Key = true) :
    messageMembers (jsonMarshalMessage m) =
      some [(bytesOf "Bucket", m.Bucket), (bytesOf "Key", m.Key)] := by
  have k2 : ∀ X, parseString (bytesOf "Key" ++ 34 :: X) = some (bytesOf "Key", X) :=
    fun X => parseString_plain_quoted _ X (by decide)
  have k1 : ∀ X, parseString (bytesOf "Bucket" ++ 34 :: X) = some (bytesOf "Bucket", X) :=
    fun X => parseString_plain_quoted _ X (by decide)
  have hlen : 3 ≤ (jsonMarshalMessage m).length := by
    rw [jsonMarshalMessage_eq]
    simp only [List.length_cons, List.length_append]
    omega
  unfold messageMembers parseJson
  generalize (jsonMarshalMessage m).length = L at hlen ⊢
  obtain ⟨f, rfl⟩ : ∃ f, L = f + 1 + 1 + 1 := ⟨L - 3, by omega⟩
  have v2 := parse_value_string_valid f m.Key (125 :: []) hk
  have m2 := parse_members_last (f + 1) (bytesOf "Key") (appendString m.Key) []
    (bytesOf "Key") (.str m.Key) (k2 _) v2
  have v1 := parse_value_string_valid (f + 1) m.Bucket
    (44 :: (34 :: bytesOf "Key" ++ 34 :: 58 :: (appendString m.Key ++ 125 :: []))) hb
  have m1 := parse_members_more (f + 1 + 1) (bytesOf "Bucket") (appendString m.Bucket)
    (34 :: bytesOf "Key" ++ 34 :: 58 :: (appendString m.Key ++ 125 :: [])) []
    (bytesOf "Bucket") (.str m.Bucket) [(bytesOf "Key", .str m.Key)] (k1 _) v1 m2
  rw [jsonMarshalMessage_eq]
  rw [parse, skipWs_cons _ _ (by decide)]
  simp only [show (123 : Nat) ≠ 34 by decide, show (123 : Nat) ≠ 91 by decide, if_false,
    if_true]
  rw [List.cons_append, skipWs_cons _ _ (by decide)]
  simp only [show (34 : Nat) ≠ 125 by decide, if_false]
  rw [← List.cons_append, m1]
  simp only [skipWs, List.dropWhile_nil, if_true]
  rfl

/-- With the encoder of the standard library `sendToSqs` always reaches `SendMessage`. -/
theorem sendToSqs_marshalled (env : Env)
    (hstd : env.marshalMessage = fun m => .ok (jsonMarshalMessage m)) (q k : Bytes) :
    (sendToSqs env q k).2 = [.sendMessage q (jsonMarshalMessage ⟨bucket, k⟩)] := by
  unfold sendToSqs
  rw [hstd]
  dsimp only
  cases env.sendMessage q (jsonMarshalMessage ⟨bucket, k⟩) <;> rfl

/-! ## The claims -/

/-- C1: in the ingestion pipeline the queue publish is called only after `saveToS3` has
returned success. When the body read, the JSON encoding or the upload fails, the number of
publish calls of the request is zero; and wherever a publish occurs in the trace, `saveToS3`
returned no error and the upload of the object, acknowledged by the store, stands before it. -/
theorem publish_only_after_store (env : Env) (r : HttpRequest) (h : r.Path ≠ bytesOf "/up") :
    (((∃ e, r.Body = .error e) ∨
      (∃ body e, r.Body = .ok body ∧
        env.marshalRequest ⟨base64Encode body, r.Header, r.RequestURI⟩ = .error e) ∨
      (∃ body o e, r.Body = .ok body ∧
        env.marshalRequest ⟨base64Encode body, r.Header, r.RequestURI⟩ = .ok o ∧
        env.upload bucket (resolveKey env r).1 o = some e)) →
      (sends (handler env r)).length = 0) ∧
    (∀ pre q m post, handler env r = pre ++ Event.sendMessage q m :: post →
      (saveToS3 env bucket (resolveKey env r).1 r).1 = none ∧
      ∃ o, Event.upload bucket (resolveKey env r).1 o ∈ pre ∧
        env.upload bucket (resolveKey env r).1 o = none) := by
  constructor
  · intro hfail
    have he := (saveToS3_error_iff env bucket (resolveKey env r).1 r).2 hfail
    rw [sends_pipeline env r h]
    cases hs : (saveToS3 env bucket (resolveKey env r).1 r).1 with
    | some e => rfl
    | none => exact absurd hs he
  · intro pre q m post hsplit
    have hmem : Event.sendMessage q m ∈ handler env r := by rw [hsplit]; simp
    have hs := (send_mem_pipeline env r h q m hmem).1
    refine ⟨hs, ?_⟩
    obtain ⟨body, o, -, -, hu, ht⟩ := saveToS3_ok env bucket (resolveKey env r).1 r hs
    refine ⟨o, ?_, hu⟩
    rw [handler_pipeline env r h, ht] at hsplit
    have hx : Event.sendMessage q m ∉
        [Event.log (r.Method ++ bytesOf ": " ++ r.URL)] ++ (resolveKey env r).2 ++
          [Event.readAll, Event.upload bucket (resolveKey env r).1 o] := by
      intro hin
      have := (mem_sends _ q m).2 hin
      rw [sends_append, sends_append, sends_resolveKey] at this
      simp [sends, Event.isSend] at this
    obtain ⟨C, hC⟩ := trace_split _ _ pre post _ hx hsplit
    rw [hC]
    simp

/-- C1, at a request whose store write fails: no publish is made. -/
theorem publish_only_after_store_witness :
    scenarioRequest.Path ≠ bytesOf "/up" ∧
      (sends (handler storeDownEnv scenarioRequest)).length = 0 :=
  ⟨by decide,
   (publish_only_after_store storeDownEnv scenarioRequest (by decide)).1
     (Or.inr (Or.inr ⟨_, _, _, rfl, rfl, rfl⟩))⟩

/-- C2: in the ingestion pipeline the response is `200` with body `done` exactly when
`saveToS3` and `sendToSqs` both return no error, and `500` with body `server error` in every
other case, whatever the text of the error. -/
theorem response_done_iff_both_succeed (env : Env) (r : HttpRequest)
    (h : r.Path ≠ bytesOf "/up") :
    ((statusOf (handler env r) = 200 ∧ bodyOf (handler env r) = bytesOf "done") ↔
      ((saveToS3 env bucket (resolveKey env r).1 r).1 = none ∧
        (sendToSqs env queue (resolveKey env r).1).1 = none)) ∧
    (¬ ((saveToS3 env bucket (resolveKey env r).1 r).1 = none ∧
        (sendToSqs env queue (resolveKey env r).1).1 = none) →
      statusOf (handler env r) = 500 ∧ bodyOf (handler env r) = bytesOf "server error") := by
  have hr := response_pipeline env r h
  by_cases hb : (saveToS3 env bucket (resolveKey env r).1 r).1 = none ∧
      (sendToSqs env queue (resolveKey env r).1).1 = none
  · rw [if_pos hb] at hr
    simp only [Prod.mk.injEq] at hr
    exact ⟨⟨fun _ => hb, fun _ => hr⟩, fun hn => absurd hb hn⟩
  · rw [if_neg hb] at hr
    simp only [Prod.mk.injEq] at hr
    refine ⟨⟨fun h2 => ?_, fun h2 => absurd h2 hb⟩, fun _ => hr⟩
    rw [hr.1] at h2
    exact absurd h2.1 (by decide)

/-- C2, at scenario 3: the store succeeds, the queue fails, the response is `500`. -/
theorem response_done_iff_both_succeed_witness :
    scenarioRequest.Path ≠ bytesOf "/up" ∧
      statusOf (handler queueDownEnv scenarioRequest) = 500 ∧
      bodyOf (handler queueDownEnv scenarioRequest) = bytesOf "server error" :=
  ⟨by decide,
   (response_done_iff_both_succeed queueDownEnv scenarioRequest (by decide)).2 (by decide)⟩

/-- C4: when the `Fly-Request-Id` header is present with a non-empty first value `v`, the
identifier resolved by the handler is `v` itself: it is the key of every store write and of
the `Message` that is encoded for the queue, and no identifier is generated. An identifier is
generated only when the header is absent, has no value, or its first value is empty. -/
theorem key_is_header_value (env : Env) (r : HttpRequest) (h : r.Path ≠ bytesOf "/up") :
    (∀ v vs, r.Header.lookup (bytesOf "Fly-Request-Id") = some (v :: vs) → v ≠ [] →
      resolveKey env r = (v, []) ∧
      Event.newUuid ∉ handler env r ∧
      (∀ b k o, Event.upload b k o ∈ handler env r → k = v) ∧
      (∀ q m, Event.sendMessage q m ∈ handler env r →
        env.marshalMessage ⟨bucket, v⟩ = .ok m)) ∧
    (Event.newUuid ∈ handler env r →
      r.Header.lookup (bytesOf "Fly-Request-Id") = none ∨
      r.Header.lookup (bytesOf "Fly-Request-Id") = some [] ∨
      ∃ vs, r.Header.lookup (bytesOf "Fly-Request-Id") = some ([] :: vs)) ∧
    (headerGet r.Header (bytesOf "Fly-Request-Id") = [] →
      (resolveKey env r).1 = env.newString ∧ Event.newUuid ∈ handler env r) := by
  refine ⟨?_, ?_, ?_⟩
  · intro v vs hl hv
    have hg := headerGet_of_lookup _ _ _ _ hl
    have hk : resolveKey env r = (v, []) := by
      rw [resolveKey_of_header env r (by rw [hg]; exact hv), hg]
    refine ⟨hk, ?_, ?_, ?_⟩
    · rw [newUuid_mem_pipeline env r h, hk]
      simp
    · intro b k o hu
      rw [← mem_uploads, uploads_pipeline env r h, mem_uploads, hk] at hu
      dsimp only at hu
      by_cases hs : (saveToS3 env bucket v r).1 = none
      · obtain ⟨_, o', -, -, -, ht⟩ := saveToS3_ok env bucket v r hs
        rw [ht] at hu
        simp at hu
        exact hu.2.1
      · rcases (saveToS3_error_iff env bucket v r).1 hs with hf | hf | ⟨body, o', e, hb, hm, -⟩
        · rw [(saveToS3_unserialized env bucket v r (Or.inl hf)).2] at hu
          simp at hu
        · rw [(saveToS3_unserialized env bucket v r (Or.inr hf)).2] at hu
          simp at hu
        · rw [saveToS3_marshalled env bucket v r body o' hb hm] at hu
          simp at hu
          exact hu.2.1
    · intro q m hm
      have := (send_mem_sendToSqs env queue _ q m (send_mem_pipeline env r h q m hm).2).2
      rw [hk] at this
      exact this
  · intro hu
    rw [newUuid_mem_pipeline env r h] at hu
    exact lookup_of_headerGet_nil _ _ (resolveKey_generated env r hu)
  · intro hg
    rw [newUuid_mem_pipeline env r h]
    unfold resolveKey
    simp [hg]

/-- C4, at scenario 1: the header value `abc123` is the resolved identifier. -/
theorem key_is_header_value_witness :
    scenarioRequest.Path ≠ bytesOf "/up" ∧
      resolveKey okEnv scenarioRequest = (bytesOf "abc123", []) ∧
      Event.newUuid ∉ handler okEnv scenarioRequest :=
  ⟨by decide,
   ((key_is_header_value okEnv scenarioRequest (by decide)).1 (bytesOf "abc123") []
      (by decide) (by decide)).1,
   ((key_is_header_value okEnv scenarioRequest (by decide)).1 (bytesOf "abc123") []
      (by decide) (by decide)).2.1⟩

/-- C5, as stated, fails: for the header value `k\xff` the object is stored under the key
`6b ff`, while the key a reader finds in the queue message is `k` followed by U+FFFD, `6b ef
bf bd`: the JSON encoder replaces the byte that is not UTF-8. -/
theorem message_key_differs_from_store_key :
    rawKeyRequest.Path ≠ bytesOf "/up" ∧
      storeKeys (handler okEnv rawKeyRequest) = [[0x6b, 0xff]] ∧
      (sentMessages (handler okEnv rawKeyRequest)).map messageMembers =
        [some [(bytesOf "Bucket", bucket), (bytesOf "Key", [0x6b, 0xef, 0xbf, 0xbd])]] := by
  decide

/-- C5, amended: when a request reaches the publish stage, with the JSON encoder of the
standard library, there is one store write, to the global bucket under the identifier
resolved at the start (taken from the header or generated), and one queue publish, of the
encoding of the `Message` with that bucket and that identifier; and when the identifier is
well-formed UTF-8, a reader of the message finds in it exactly the bucket and the key of the
store write. -/
theorem reference_matches_stored_object (env : Env) (r : HttpRequest)
    (hstd : env.marshalMessage = fun m => .ok (jsonMarshalMessage m))
    (h : r.Path ≠ bytesOf "/up")
    (hs : (saveToS3 env bucket (resolveKey env r).1 r).1 = none) :
    ∃ o m, uploads (handler env r) = [Event.upload bucket (resolveKey env r).1 o] ∧
      sends (handler env r) = [Event.sendMessage queue m] ∧
      m = jsonMarshalMessage { Bucket := bucket, Key := (resolveKey env r).1 } ∧
      (utf8Valid (resolveKey env r).1 = true →
        messageMembers m =
          some [(bytesOf "Bucket", bucket), (bytesOf "Key", (resolveKey env r).1)]) := by
  obtain ⟨body, o, -, -, -, ht⟩ := saveToS3_ok env bucket (resolveKey env r).1 r hs
  refine ⟨o, jsonMarshalMessage ⟨bucket, (resolveKey env r).1⟩, ?_, ?_, rfl, ?_⟩
  · rw [uploads_pipeline env r h, ht]
    simp [uploads, Event.isUpload]
  · rw [sends_pipeline env r h, hs]
    dsimp only
    rw [sendToSqs_marshalled env hstd]
    simp [sends, Event.isSend]
  · intro hv
    have hbk : utf8Valid bucket = true := by decide
    exact messageMembers_marshal ⟨bucket, (resolveKey env r).1⟩ hbk hv

/-- C5, amended, at a request without the header: the generated identifier is the key of
the store write and the key read from the message. -/
theorem reference_matches_stored_object_witness :
    anonymousRequest.Path ≠ bytesOf "/up" ∧
      (saveToS3 okEnv bucket (resolveKey okEnv anonymousRequest).1 anonymousRequest).1 = none ∧
      utf8Valid (resolveKey okEnv anonymousRequest).1 = true ∧
      ∃ o m, uploads (handler okEnv anonymousRequest) =
          [Event.upload bucket (resolveKey okEnv anonymousRequest).1 o] ∧
        sends (handler okEnv anonymousRequest) = [Event.sendMessage queue m] ∧
        m = jsonMarshalMessage
          { Bucket := bucket, Key := (resolveKey okEnv anonymousRequest).1 } ∧
        (utf8Valid (resolveKey okEnv anonymousRequest).1 = true →
          messageMembers m =
            some [(bytesOf "Bucket", bucket),
              (bytesOf "Key", (resolveKey okEnv anonymousRequest).1)]) :=
  ⟨by decide, by decide, by decide,
   reference_matches_stored_object okEnv anonymousRequest rfl (by decide) (by decide)⟩

/-- C7: a request to `/up` is answered with `200` and body `up`, with no store write and
no queue publish, whatever the collaborators would answer; the effects of handling it are
the same under any two states of the collaborators, so handling it twice gives the same
response. -/
theorem liveness_route (env env2 : Env) (r : HttpRequest) (h : r.Path = bytesOf "/up") :
    statusOf (handler env r) = 200 ∧ bodyOf (handler env r) = bytesOf "up" ∧
      uploads (handler env r) = [] ∧ sends (handler env r) = [] ∧
      handler env2 r = handler env r := by
  rw [handler_liveness env r h, handler_liveness env2 r h]
  exact ⟨rfl, by simp [bodyOf], rfl, rfl, rfl⟩

/-- C7, at `/up` with both collaborators unreachable. -/
theorem liveness_route_witness :
    upRequest.Path = bytesOf "/up" ∧ statusOf (handler storeDownEnv upRequest) = 200 ∧
      bodyOf (handler storeDownEnv upRequest) = bytesOf "up" :=
  ⟨by decide, (liveness_route storeDownEnv queueDownEnv upRequest (by decide)).1,
   (liveness_route storeDownEnv queueDownEnv upRequest (by decide)).2.1⟩

/-- C8: when the body cannot be read to its end, or `json.Marshal` returns an error,
`saveToS3` returns an error and `uploader.Upload` is not called, neither by `saveToS3` nor
anywhere else in the handling of the request. -/
theorem no_upload_when_serialization_fails (env : Env) (b k : Bytes) (r : HttpRequest)
    (hfail : (∃ e, r.Body = .error e) ∨
      ∃ body e, r.Body = .ok body ∧
        env.marshalRequest ⟨base64Encode body, r.Header, r.RequestURI⟩ = .error e) :
    (saveToS3 env b k r).1 ≠ none ∧ uploads (saveToS3 env b k r).2 = [] ∧
      uploads (handler env r) = [] := by
  obtain ⟨h1, h2⟩ := saveToS3_unserialized env b k r hfail
  refine ⟨h1, by rw [h2]; rfl, ?_⟩
  by_cases hp : r.Path = bytesOf "/up"
  · rw [handler_liveness env r hp]
    rfl
  · rw [uploads_pipeline env r hp,
      (saveToS3_unserialized env bucket (resolveKey env r).1 r hfail).2]
    rfl

/-- C8, at a request whose body stream breaks. -/
theorem no_upload_when_serialization_fails_witness :
    (saveToS3 okEnv bucket (bytesOf "abc123") brokenBodyRequest).1 ≠ none ∧
      uploads (saveToS3 okEnv bucket (bytesOf "abc123") brokenBodyRequest).2 = [] ∧
      uploads (handler okEnv brokenBodyRequest) = [] :=
  no_upload_when_serialization_fails okEnv bucket (bytesOf "abc123") brokenBodyRequest
    (Or.inl ⟨_, rfl⟩)

/-- C10, as stated, fails: a request to `/` whose body cannot be read enters the pipeline
and causes no store write attempt. -/
theorem store_write_not_always_attempted :
    brokenBodyRequest.Path ≠ bytesOf "/up" ∧ uploads (handler okEnv brokenBodyRequest) = [] ∧
      bodyOf (handler okEnv brokenBodyRequest) = bytesOf "server error" := by
  decide

/-- C10, amended: on a request that the mux hands to the handler function, the liveness
route is selected by the path alone. Whatever the method, the headers and the body, such a
request with path `/up` gets `200`/`up` and is neither stored nor queued. Such a request
with any other path enters the pipeline: the body is read, and the store write is attempted,
once, exactly when the body read and the encoding succeed. (Which requests reach the handler
function is decided by `DefaultServeMux`, which answers some itself: a path that is not in
canonical form, such as `//up`, gets a redirect.) -/
theorem liveness_selected_by_path (env : Env) (r : HttpRequest) :
    (r.Path = bytesOf "/up" →
      statusOf (handler env r) = 200 ∧ bodyOf (handler env r) = bytesOf "up" ∧
        uploads (handler env r) = [] ∧ sends (handler env r) = []) ∧
    (r.Path ≠ bytesOf "/up" →
      Event.readAll ∈ handler env r ∧
      (∀ body o, r.Body = .ok body →
        env.marshalRequest ⟨base64Encode body, r.Header, r.RequestURI⟩ = .ok o →
        uploads (handler env r) = [Event.upload bucket (resolveKey env r).1 o]) ∧
      (((∃ e, r.Body = .error e) ∨
        ∃ body e, r.Body = .ok body ∧
          env.marshalRequest ⟨base64Encode body, r.Header, r.RequestURI⟩ = .error e) →
        uploads (handler env r) = [])) := by
  constructor
  · intro h
    rw [handler_liveness env r h]
    exact ⟨rfl, by simp [bodyOf], rfl, rfl⟩
  · intro h
    refine ⟨?_, ?_, ?_⟩
    · rw [handler_pipeline env r h]
      have := readAll_mem_saveToS3 env bucket (resolveKey env r).1 r
      simp [this]
    · intro body o hb hm
      rw [uploads_pipeline env r h, saveToS3_marshalled env bucket _ r body o hb hm]
      rfl
    · intro hfail
      rw [uploads_pipeline env r h,
        (saveToS3_unserialized env bucket (resolveKey env r).1 r hfail).2]
      rfl

/-- C10, amended, at a `POST` to `/up` with a body and a header, and at the path `/UP`. -/
theorem liveness_selected_by_path_witness :
    (upRequest.Path = bytesOf "/up" ∧ uploads (handler okEnv upRequest) = [] ∧
      sends (handler okEnv upRequest) = []) ∧
    (anonymousRequest.Path ≠ bytesOf "/up" ∧ Event.readAll ∈ handler okEnv anonymousRequest) :=
  ⟨⟨by decide, ((liveness_selected_by_path okEnv upRequest).1 (by decide)).2.2.1,
    ((liveness_selected_by_path okEnv upRequest).1 (by decide)).2.2.2⟩,
   ⟨by decide, ((liveness_selected_by_path okEnv anonymousRequest).2 (by decide)).1⟩⟩

/-- C3: the field names of the queue message. The tags of `Message` are written without
quotes (`json:bucket`), so `StructTag.Get` finds no `json` key in them and the encoder falls
back to the Go names: every message is the object with the fields `Bucket` and `Key`, in
that order, and for the key `abc123` the queue receives the text with `"Bucket"` and
`"Key"`, in which a reader finds no member `bucket` or `key`. -/
theorem message_fields_have_go_names :
    (∀ m : Message, jsonMarshalMessage m =
      bytesOf "\x7b\"Bucket\":" ++ appendString m.Bucket ++ bytesOf ",\"Key\":" ++
        appendString m.Key ++ bytesOf "\x7d") ∧
    (∀ fuel, tagLookup (bytesOf "json") fuel (bytesOf "json:bucket") = none) ∧
    (∀ fuel, tagLookup (bytesOf "json") fuel (bytesOf "json:key") = none) ∧
    sendToSqs okEnv queue (bytesOf "abc123") =
      (none, [.sendMessage queue
        (bytesOf "\x7b\"Bucket\":\"some bucket\",\"Key\":\"abc123\"\x7d")]) ∧
    messageMembers (bytesOf "\x7b\"Bucket\":\"some bucket\",\"Key\":\"abc123\"\x7d") =
      some [(bytesOf "Bucket", bytesOf "some bucket"), (bytesOf "Key", bytesOf "abc123")] := by
  refine ⟨fun m => ?_, fun fuel => by cases fuel <;> rfl, fun fuel => by cases fuel <;> rfl,
    by decide, by decide⟩
  have e : jsonMarshalMessage m = structEncode
      [(⟨bytesOf "Bucket", bytesOf "json:bucket"⟩, appendString m.Bucket),
       (⟨bytesOf "Key", bytesOf "json:key"⟩, appendString m.Key)] := rfl
  have a1 : appendString (bytesOf "Bucket") = bytesOf "\"Bucket\"" := by decide
  have a2 : appendString (bytesOf "Key") = bytesOf "\"Key\"" := by decide
  have h1 : jsonFieldName ⟨bytesOf "Bucket", bytesOf "json:bucket"⟩ = some (bytesOf "Bucket") := by
    decide
  have h2 : jsonFieldName ⟨bytesOf "Key", bytesOf "json:key"⟩ = some (bytesOf "Key") := by
    decide
  rw [e, structEncode_two _ _ _ _ _ _ h1 h2, a1, a2]
  have b1 : bytesOf "\x7b\"Bucket\":" = 123 :: (bytesOf "\"Bucket\"" ++ [58]) := by decide
  have b2 : bytesOf ",\"Key\":" = 44 :: (bytesOf "\"Key\"" ++ [58]) := by decide
  have b3 : bytesOf "\x7d" = [125] := by decide
  rw [b1, b2, b3]
  simp

/-- C6: the stored object keeps the body byte for byte. When the body is read, `saveToS3`
uploads one object; parsing it as JSON, taking its member `body` and decoding that from
base64 gives the bytes of the body, whatever they are, also when they are no UTF-8 text or
there are none. -/
theorem stored_body_round_trip (newString : Bytes)
    (upload : Bytes → Bytes → Bytes → Option Bytes) (sendMessage : Bytes → Bytes → Option Bytes)
    (bkt key : Bytes) (r : HttpRequest) (body : Bytes)
    (hr : r.Body = .ok body) (hb : ∀ b ∈ body, b < 256) :
    ∃ o, (saveToS3 (goEnv newString upload sendMessage) bkt key r).2 =
        [.readAll, .upload bkt key o] ∧
      storedBody o = some body :=
  ⟨jsonMarshalRequest ⟨base64Encode body, r.Header, r.RequestURI⟩,
   saveToS3_marshalled _ bkt key r body _ hr rfl,
   storedBody_marshal body r.RequestURI r.Header hb⟩

/-- C6, at scenario 1: the body decodes back to itself. -/
theorem stored_body_round_trip_witness :
    scenarioRequest.Body = .ok (bytesOf "\x7b\"x\":1\x7d") ∧
      (∀ b ∈ bytesOf "\x7b\"x\":1\x7d", b < 256) ∧
      ∃ o, (saveToS3 okEnv bucket (bytesOf "abc123") scenarioRequest).2 =
          [.readAll, .upload bucket (bytesOf "abc123") o] ∧
        storedBody o = some (bytesOf "\x7b\"x\":1\x7d") :=
  ⟨rfl, by decide,
   stored_body_round_trip (bytesOf "generated-uuid") (fun _ _ _ => none) (fun _ _ => none)
     bucket (bytesOf "abc123") scenarioRequest (bytesOf "\x7b\"x\":1\x7d") rfl (by decide)⟩

end Hahooks
